import Mathlib

/-!
# floppymusic: drive registry, scheduler sweep and voice allocation

A shallow embedding of `src/DriveManager.cpp` (the drive records, `play`, `stop`
and the body of the scheduler loop) and of the play loop of `src/main.cpp` (the
channel-to-drive allocation), followed by the properties established about them.

Conventions of the embedding:

* a C++ `int` is an `Int`; a value that `++` computes into an `int` is reduced to
  32 bits by `wrapInt`;
* a `double` is a rational number: values and the division are exact. The rounding
  of the double division is not represented, nor are infinities and NaN: where the
  exact quotient lies below an integer that the rounded quotient reaches, `play`
  stores another value than the one computed here, so the stored value is described
  by bounds and at quotients that are exact only;
* where the source leaves an operation undefined (a `double` too large for the `int`
  it is assigned to, a shift count of 32 or more) the model takes the result of the
  x86-64 instruction: -2147483648 for the conversion, the count modulo 32 for the shift;
* `pool_free` is represented by the 32-bit pattern of the `int`, a `Nat`, so the
  mask has the bits 0 .. 31 and no others;
* threads and the sleeps are not represented: `DriveManager.play`,
  `DriveManager.stop` and one iteration of the scheduler loop are atomic steps; the
  calls to the mutex are kept in the operation lists `playOps` and `stopOps` only;
* the GPIO writes (build without `NOGPIO`) are collected in a trace.
-/

namespace FloppyMusic

/-! ## Machine integers -/

/-- The value of a 32-bit two's complement `int` holding the low 32 bits of `x`. -/
def wrapInt (x : Int) : Int := (x + 2147483648) % 4294967296 - 2147483648

/-- The conversion `double → int` of an assignment: truncation toward zero. For a
value outside the range of `int` the conversion is undefined in the source; the model
gives -2147483648, the result of the x86-64 conversion instruction. -/
def doubleToInt (q : ℚ) : Int :=
  if -2147483648 ≤ Int.tdiv q.num q.den ∧ Int.tdiv q.num q.den ≤ 2147483647 then
    Int.tdiv q.num q.den
  else -2147483648

/-! ## DriveManager.cpp -/

/-- The constant `MAX_STEPS` (`#define MAX_STEPS 80`). -/
def MAX_STEPS : Int := 80

/-- The constant `RESOLUTION` (`#define RESOLUTION 7200`). -/
def RESOLUTION : Int := 7200

/-- The record `struct Drive` of `DriveManager.hpp`. -/
structure Drive where
  dir_fd : Int
  step_fd : Int
  direction_pin : Int
  stepper_pin : Int
  ticks : Int
  maxticks : Int
  steps : Int
  direction : Bool
deriving DecidableEq, Repr

/-- One entry of the `DriveList` handed to the constructor: the two pins of a drive. -/
structure DriveCfg where
  direction_pin : Int
  stepper_pin : Int
deriving DecidableEq, Repr

/-- The two output lines of a drive. -/
inductive Line where
  | direction
  | step
deriving DecidableEq, Repr

/-- One write to an output line: `level = true` is `GPIO_SET` (or `write(fd, "1")`),
`level = false` is `GPIO_CLR` (or `write(fd, "0")`). `drive` is the position of the
drive in `m_drives`. -/
structure GpioWrite where
  drive : Nat
  line : Line
  level : Bool
deriving DecidableEq, Repr

namespace DriveManager

/-- The constructor `DriveManager::DriveManager(DriveList drives)`: the initial `m_drives`. -/
def create (drives : List DriveCfg) : List Drive :=
  drives.map fun drv =>
    { dir_fd := 0, step_fd := 0, direction_pin := drv.direction_pin,
      stepper_pin := drv.stepper_pin, ticks := 0, maxticks := -1, steps := 0,
      direction := true }

/-- The access `m_drives[drive]` followed by an update of the record. The source
does not check the index; outside `0 .. size-1` the model leaves `m_drives` alone. -/
def update (m_drives : List Drive) (drive : Int) (f : Drive → Drive) : List Drive :=
  if drive < 0 then m_drives
  else
    match m_drives[drive.toNat]? with
    | some d => m_drives.set drive.toNat (f d)
    | none => m_drives

/-- The method `DriveManager::stop`. -/
def stop (m_drives : List Drive) (drive : Int) : List Drive :=
  update m_drives drive fun d => { d with maxticks := -1 }

/-- The method `DriveManager::play`. -/
def play (m_drives : List Drive) (drive : Int) (frequency : ℚ) : List Drive :=
  if frequency = 0 then stop m_drives drive
  else
    update m_drives drive fun d =>
      { d with ticks := 0, maxticks := doubleToInt ((RESOLUTION : ℚ) / frequency) }

/-- The pulse on the step line: set, (`_nop_delay`), clear. -/
def pulse (j : Nat) : List GpioWrite :=
  [⟨j, Line.step, true⟩, ⟨j, Line.step, false⟩]

/-- The body of the `for` loop of `DriveManager::loop` for the drive at position `j`:
the updated record and the writes made. -/
def loopDrive (j : Nat) (d : Drive) : Drive × List GpioWrite :=
  if d.maxticks = -1 then (d, [])
  else
    let ticks := wrapInt (d.ticks + 1)
    if ticks ≥ d.maxticks then
      let steps := wrapInt (d.steps + 1)
      if steps > MAX_STEPS then
        let direction := !d.direction
        ({ d with ticks := 0, steps := 0, direction := direction },
          ⟨j, Line.direction, direction⟩ :: pulse j)
      else
        ({ d with ticks := 0, steps := steps }, pulse j)
    else
      ({ d with ticks := ticks }, [])

/-- The `for` loop of `DriveManager::loop` over the drives from position `j` on. -/
def loopFrom : Nat → List Drive → List Drive × List GpioWrite
  | _, [] => ([], [])
  | j, d :: ds =>
    let r := loopDrive j d
    let rs := loopFrom (j + 1) ds
    (r.1 :: rs.1, r.2 ++ rs.2)

/-- One iteration of the `while` loop of `DriveManager::loop` (one scheduler sweep):
the new `m_drives` and the writes made, in order. -/
def loopIter (m_drives : List Drive) : List Drive × List GpioWrite :=
  loopFrom 0 m_drives

end DriveManager

/-- What can happen to the registry: a scheduler sweep, or a call of `play` or `stop`
from the control thread. -/
inductive Action where
  | sweep
  | play (drive : Int) (frequency : ℚ)
  | stop (drive : Int)
deriving DecidableEq

/-- Whether an action is a `play` or a `stop` on the drive `i`. -/
def Action.commands (i : Int) : Action → Bool
  | Action.sweep => false
  | Action.play drive _ => decide (drive = i)
  | Action.stop drive => decide (drive = i)

/-- Whether an action is a `play` on the drive `i`. -/
def Action.plays (i : Int) : Action → Bool
  | Action.play drive _ => decide (drive = i)
  | _ => false

/-- Whether an action is a sweep. -/
def Action.isSweep : Action → Bool
  | Action.sweep => true
  | _ => false

/-- The effect of one action on `m_drives`, with the writes it makes. -/
def applyAction (m_drives : List Drive) : Action → List Drive × List GpioWrite
  | Action.sweep => DriveManager.loopIter m_drives
  | Action.play drive frequency => (DriveManager.play m_drives drive frequency, [])
  | Action.stop drive => (DriveManager.stop m_drives drive, [])

/-- The effect of a sequence of actions, with all writes in order. -/
def runActions (m_drives : List Drive) : List Action → List Drive × List GpioWrite
  | [] => (m_drives, [])
  | a :: as =>
    let r := applyAction m_drives a
    let rs := runActions r.1 as
    (rs.1, r.2 ++ rs.2)

/-- The number of sweeps in a sequence of actions. -/
def sweepCount (as : List Action) : Nat := as.countP Action.isSweep

/-- The writes of a trace that go to the drive at position `i`. -/
def writesOf (i : Nat) (trace : List GpioWrite) : List GpioWrite :=
  trace.filter fun w => decide (w.drive = i)

/-- The number of step pulses a trace holds for the drive at position `i` (a pulse
starts with the step line going high). -/
def stepPulses (i : Nat) (trace : List GpioWrite) : Nat :=
  trace.countP fun w => decide (w.drive = i ∧ w.line = Line.step ∧ w.level = true)

/-- The scheduler seen from the drive at position `j` alone: `n` successive passes of
the `for` body over its record, with the writes made. -/
def sweepsDrive (j : Nat) : Nat → Drive → Drive × List GpioWrite
  | 0, d => (d, [])
  | n + 1, d =>
    let r := DriveManager.loopDrive j d
    let rs := sweepsDrive j n r.1
    (rs.1, r.2 ++ rs.2)

/-! ## main.cpp -/

/-- The table `frequencies` (C C# D D# E F F# G G# A A# H). -/
def frequencies : List ℚ :=
  [261.626, 277.183, 293.665, 311.127, 329.628, 349.228, 369.994, 391.995, 415.305,
   440.000, 466.164, 493.883]

/-- The call `s.find("\r", it)`: the first position from `it` on that holds a carriage
return, `none` for `npos`. A `std::string` is a list of characters. -/
def findCR : List Char → Nat → Option Nat
  | [], _ => none
  | c :: cs, 0 => if c = '\r' then some 0 else (findCR cs 0).map (· + 1)
  | _ :: cs, it + 1 => (findCR cs it).map (· + 1)

/-- A position returned by `findCR` holds a carriage return. -/
theorem findCR_spec : ∀ (s : List Char) (it p : Nat), findCR s it = some p → s[p]? = some '\r'
  | [], _, _, h => by simp [findCR] at h
  | c :: cs, 0, p, h => by
    unfold findCR at h
    split at h
    · rename_i hc
      cases h
      simp [hc]
    · cases hq : findCR cs 0 with
      | none => simp [hq] at h
      | some q =>
        simp only [hq, Option.map_some', Option.some.injEq] at h
        subst h
        simpa using findCR_spec cs 0 q hq
  | _ :: cs, it + 1, p, h => by
    unfold findCR at h
    cases hq : findCR cs it with
    | none => simp [hq] at h
    | some q =>
      simp only [hq, Option.map_some', Option.some.injEq] at h
      subst h
      simpa using findCR_spec cs it q hq

/-- Replacing a carriage return lowers the number of carriage returns. -/
theorem count_set_CR : ∀ (s : List Char) (p : Nat), s[p]? = some '\r' →
    (s.set p '\n').count '\r' < s.count '\r'
  | [], _, h => by simp at h
  | c :: cs, 0, h => by
    simp only [List.getElem?_cons_zero, Option.some.injEq] at h
    simp [List.count_cons, h]
  | c :: cs, p + 1, h => by
    simp only [List.getElem?_cons_succ] at h
    have := count_set_CR cs p h
    simp only [List.set_cons_succ, List.count_cons]
    omega

/-- The loop of `r_to_n`, entered with the string `s` and the position `it`:
`while ((it = s.find("\r", it)) != npos) s.replace(it, 1, "\n");`. -/
def r_to_n_loop (s : List Char) (it : Nat) : List Char :=
  match h : findCR s it with
  | none => s
  | some p => r_to_n_loop (s.set p '\n') p
termination_by s.count '\r'
decreasing_by exact count_set_CR s p (findCR_spec s it p h)

/-- The function `r_to_n`: carriage returns become newlines. -/
def r_to_n (s : List Char) : List Char := r_to_n_loop s 0

/-- The fields of `arguments` the play loop reads. -/
structure Arguments where
  drop_factor : ℚ
  lyrics : Bool

/-- An event of the merged track, as far as the play loop looks at it
(`relative_musec` only feeds `usleep` and is left out). -/
inductive Event where
  | noteOff (muted : Bool) (channel : Int)
  | noteOn (muted : Bool) (channel : Int) (note : Nat)
  | lyrics (text : List Char)
  | other

/-- What the play loop does to the outside: calls of `dmgr.play` and `dmgr.stop`,
and text written to `std::cout`. -/
inductive Effect where
  | play (drive : Int) (frequency : ℚ)
  | stop (drive : Int)
  | print (text : List Char)
deriving DecidableEq

/-- The lookup `channel_map.find(channel)`: the mapped drive, `none` for `end()`.
A `std::map<int, int>` is the list of its entries in ascending key order. -/
def mapFind : List (Int × Int) → Int → Option Int
  | [], _ => none
  | (k, v) :: rest, channel => if k = channel then some v else mapFind rest channel

/-- The assignment `channel_map[channel] = drive`. -/
def mapAssign : List (Int × Int) → Int → Int → List (Int × Int)
  | [], channel, drive => [(channel, drive)]
  | (k, v) :: rest, channel, drive =>
    if channel < k then (channel, drive) :: (k, v) :: rest
    else if channel = k then (channel, drive) :: rest
    else (k, v) :: mapAssign rest channel drive

/-- The removal `channel_map.erase(it)` of the entry found for `channel`. -/
def mapErase : List (Int × Int) → Int → List (Int × Int)
  | [], _ => []
  | (k, v) :: rest, channel => if k = channel then rest else (k, v) :: mapErase rest channel

/-- The value `1 << k` as a 32-bit pattern: bit `k` for `0 ≤ k < 32`. For any other
count the shift is undefined in the source; the model takes the count modulo 32, as
the x86-64 shift instruction does. -/
def shl1 (k : Int) : Nat := 2 ^ (k % 32).toNat

/-- The variables the play loop carries from one event to the next. -/
structure PlayState where
  channel_map : List (Int × Int)
  pool_free : Nat
deriving DecidableEq, Repr

/-- The state before the first event: `channel_map` empty, `pool_free = 0`. -/
def PlayState.empty : PlayState := { channel_map := [], pool_free := 0 }

/-- The search `for (check = 0; check < dcount; ++check)` for a free drive: the first
`check` with `!(pool_free & (1 << check))`, or `-1` (the value `new_index` keeps). -/
def freeDrive (pool_free : Nat) (dcount : Nat) : Int :=
  match (List.range dcount).find? fun (check : Nat) => pool_free &&& shl1 (check : Int) == 0 with
  | some check => (check : Int)
  | none => -1

/-- The frequency handed to `play` for a note:
`frequencies[e->getNote() % 12] / arguments.drop_factor`. -/
def pitch (arguments : Arguments) (note : Nat) : ℚ :=
  frequencies.getD (note % 12) 0 / arguments.drop_factor

/-- The body of the play loop for one event (after the `usleep`): the new state and the
effects, in order. `dcount` is the number of configured drives. -/
def handleEvent (arguments : Arguments) (dcount : Nat) (st : PlayState) :
    Event → PlayState × List Effect
  | Event.noteOff muted channel =>
    if muted then (st, [])
    else
      match mapFind st.channel_map channel with
      | some drive =>
        ({ channel_map := mapErase st.channel_map channel,
           pool_free := st.pool_free ^^^ shl1 drive }, [Effect.stop drive])
      | none => (st, [])
  | Event.noteOn muted channel note =>
    if muted then (st, [])
    else
      let new_index : Int :=
        match mapFind st.channel_map channel with
        | some drive => drive
        | none => freeDrive st.pool_free dcount
      if new_index ≠ -1 then
        ({ channel_map := mapAssign st.channel_map channel new_index,
           pool_free := st.pool_free ||| shl1 new_index },
          [Effect.play new_index (pitch arguments note)])
      else (st, [])
  | Event.lyrics text =>
    if arguments.lyrics then (st, [Effect.print (r_to_n text)]) else (st, [])
  | Event.other => (st, [])

/-- The play loop over a list of events. -/
def playLoop (arguments : Arguments) (dcount : Nat) (st : PlayState) :
    List Event → PlayState × List Effect
  | [] => (st, [])
  | e :: es =>
    let r := handleEvent arguments dcount st e
    let rs := playLoop arguments dcount r.1 es
    (rs.1, r.2 ++ rs.2)

/-- The shape of a `std::map`: the keys of the entries are strictly ascending. -/
def keysAscending (m : List (Int × Int)) : Prop := m.Pairwise fun a b => a.1 < b.1

/-- The states the play loop keeps itself in, for `dcount` drives: `channel_map` is a
map, it maps into `0 .. dcount-1` and below 32, and a mapped drive is marked in
`pool_free` and belongs to one channel only. -/
structure WellFormed (dcount : Nat) (st : PlayState) : Prop where
  ascending : keysAscending st.channel_map
  range : ∀ c v, mapFind st.channel_map c = some v → 0 ≤ v ∧ v < dcount ∧ v < 32
  marked : ∀ c v, mapFind st.channel_map c = some v → st.pool_free.testBit v.toNat = true
  unique : ∀ c c' v, mapFind st.channel_map c = some v → mapFind st.channel_map c' = some v →
    c = c'
  width : st.pool_free < 4294967296

/-- The states the play loop reaches from the empty state, for `dcount` drives. -/
def Reachable (arguments : Arguments) (dcount : Nat) (st : PlayState) : Prop :=
  ∃ events : List Event, (playLoop arguments dcount PlayState.empty events).1 = st

/-- Unmuted Note-On events on the channels `0 .. n-1`, one each, all for note 60. -/
def notesOn (n : Nat) : List Event :=
  (List.range n).map fun c => Event.noteOn false (c : Int) 60

/-- The writes that come with the `p`-th pulse of the drive at position `j`, in the
words of the specification: when `p` is a multiple of `MAX_STEPS + 1 = 81` the direction
line is written first, with the level the direction has after `p / 81` flips from
`true`; then the step line is pulsed. -/
def pulseSlot (j : Nat) (p : Nat) : List GpioWrite :=
  (if p % 81 = 0 then [⟨j, Line.direction, decide (p / 81 % 2 = 0)⟩] else []) ++
    DriveManager.pulse j

/-- The writes that come with the pulses `p0 + 1 .. p0 + n` of the drive at position `j`. -/
def pulseTrain (j : Nat) (p0 : Nat) : Nat → List GpioWrite
  | 0 => []
  | n + 1 => pulseSlot j (p0 + 1) ++ pulseTrain j (p0 + 1) n

/-- The frequencies for which `play` leaves a drive idle or pulsing: 0 (handed to
`stop`), or a frequency in `(0, RESOLUTION]` whose quotient fits an `int`. -/
def playable (frequency : ℚ) : Prop :=
  frequency = 0 ∨
    (0 < frequency ∧ frequency ≤ (RESOLUTION : ℚ) ∧
      ⌊(RESOLUTION : ℚ) / frequency⌋ ≤ 2147483647)

/-- Whether an action is a sweep, a `stop`, or a `play` with a playable frequency. -/
def Action.playable : Action → Prop
  | Action.play _ frequency => FloppyMusic.playable frequency
  | _ => True

/-- The character that stands at a position after the normalisation, in the words of
the specification: a carriage return becomes a line break, any other character stays. -/
def crToLf (c : Char) : Char := if c = '\r' then '\n' else c

/-- What `play` and `stop` do to `m_mutex` and to the shared records, in program
order: `pthread_mutex_lock`, `pthread_mutex_unlock`, and the assignments to the `ticks`
and `maxticks` of `m_drives[drive]`. -/
inductive MemOp where
  | lock
  | unlock
  | setTicks (drive : Int) (value : Int)
  | setMaxticks (drive : Int) (value : Int)
deriving DecidableEq

/-- The operations of `DriveManager::stop`, in program order. -/
def stopOps (drive : Int) : List MemOp := [MemOp.setMaxticks drive (-1)]

/-- The operations of `DriveManager::play`, in program order. -/
def playOps (drive : Int) (frequency : ℚ) : List MemOp :=
  if frequency = 0 then stopOps drive
  else
    [MemOp.lock, MemOp.setTicks drive 0,
      MemOp.setMaxticks drive (doubleToInt ((RESOLUTION : ℚ) / frequency)), MemOp.unlock]

/-- The effect of a sequence of operations on `m_drives`. -/
def applyOps (m_drives : List Drive) : List MemOp → List Drive
  | [] => m_drives
  | MemOp.lock :: ops => applyOps m_drives ops
  | MemOp.unlock :: ops => applyOps m_drives ops
  | MemOp.setTicks drive value :: ops =>
    applyOps (DriveManager.update m_drives drive fun d => { d with ticks := value }) ops
  | MemOp.setMaxticks drive value :: ops =>
    applyOps (DriveManager.update m_drives drive fun d => { d with maxticks := value }) ops

/-- Whether every assignment of a sequence of operations is made while the mutex is held;
`held` tells whether it is held at the start. -/
def guardedFrom : Bool → List MemOp → Bool
  | _, [] => true
  | _, MemOp.lock :: ops => guardedFrom true ops
  | _, MemOp.unlock :: ops => guardedFrom false ops
  | held, MemOp.setTicks _ _ :: ops => held && guardedFrom held ops
  | held, MemOp.setMaxticks _ _ :: ops => held && guardedFrom held ops

/-- Whether every assignment of a call is made between an acquire and a release of the
mutex; the caller does not hold it. -/
def guarded (ops : List MemOp) : Bool := guardedFrom false ops

/-- The drive index an effect hands to the registry: the first argument of `play` or
of `stop`; a print has none. -/
def Effect.drive? : Effect → Option Int
  | Effect.play drive _ => some drive
  | Effect.stop drive => some drive
  | Effect.print _ => none

/-- The states in which every bit set in `pool_free` belongs to a drive that some
channel is mapped to. -/
def Covered (st : PlayState) : Prop :=
  ∀ i : Nat, st.pool_free.testBit i = true → ∃ c, mapFind st.channel_map c = some (i : Int)

/-- The number of drives among `0 .. dcount-1` that are marked in `pool_free`. -/
def occupied (pool_free : Nat) (dcount : Nat) : Nat :=
  (List.range dcount).countP fun i => pool_free.testBit i

/-! ## Properties of the registry -/

open DriveManager

theorem wrapInt_of_range {x : Int} (h0 : -2147483648 ≤ x) (h1 : x < 2147483648) : wrapInt x = x := by
  unfold wrapInt; omega

theorem wrapInt_lt (x : Int) : wrapInt x < 2147483648 := by
  unfold wrapInt; omega

theorem wrapInt_ge (x : Int) : -2147483648 ≤ wrapInt x := by
  unfold wrapInt; omega

theorem doubleToInt_of_range {q : ℚ} (h : 0 ≤ q) (hr : ⌊q⌋ ≤ 2147483647) :
    doubleToInt q = ⌊q⌋ := by
  have ht : Int.tdiv q.num q.den = ⌊q⌋ := by
    rw [Rat.floor_def, Int.tdiv_eq_ediv (Rat.num_nonneg.mpr h) (by positivity)]
  have h0 : 0 ≤ ⌊q⌋ := Int.floor_nonneg.mpr h
  unfold doubleToInt
  rw [ht, if_pos ⟨by omega, hr⟩]

theorem update_length (ds : List Drive) (drive : Int) (f : Drive → Drive) :
    (update ds drive f).length = ds.length := by
  unfold update
  split
  · rfl
  · split <;> simp

theorem update_getElem?_self (ds : List Drive) (i : Nat) (f : Drive → Drive) :
    (update ds (i : Int) f)[i]? = (ds[i]?).map f := by
  unfold update
  have h : ¬ ((i : Int) < 0) := by omega
  simp only [h, if_false, Int.toNat_natCast]
  cases hd : ds[i]? with
  | none => simp [hd]
  | some d =>
    have hi : i < ds.length := by
      by_contra hc
      rw [List.getElem?_eq_none (by omega)] at hd
      cases hd
    simp [List.getElem?_set_self hi]

theorem update_getElem?_ne (ds : List Drive) (drive : Int) (f : Drive → Drive) (i : Nat)
    (h : drive ≠ (i : Int)) : (update ds drive f)[i]? = ds[i]? := by
  unfold update
  split
  · rfl
  · rename_i h0
    split
    · apply List.getElem?_set_ne
      intro hc
      apply h
      omega
    · rfl

theorem loopDrive_drive (j : Nat) (d : Drive) : ∀ w ∈ (loopDrive j d).2, w.drive = j := by
  intro w hw
  unfold loopDrive at hw
  simp only [pulse] at hw
  split at hw
  · simp at hw
  · split at hw
    · split at hw
      · simp only [List.mem_cons, List.mem_singleton] at hw
        rcases hw with h | h | h | h <;> simp_all
      · simp only [List.mem_cons, List.mem_singleton] at hw
        rcases hw with h | h | h <;> simp_all
    · simp at hw

theorem loopFrom_drive_ge : ∀ (ds : List Drive) (j : Nat), ∀ w ∈ (loopFrom j ds).2, j ≤ w.drive
  | [], _, w, hw => by simp [loopFrom] at hw
  | d :: ds, j, w, hw => by
    simp only [loopFrom, List.mem_append] at hw
    rcases hw with h | h
    · exact (loopDrive_drive j d w h).ge
    · have := loopFrom_drive_ge ds (j + 1) w h
      omega

theorem writesOf_append (i : Nat) (t1 t2 : List GpioWrite) :
    writesOf i (t1 ++ t2) = writesOf i t1 ++ writesOf i t2 := by
  simp [writesOf]

theorem writesOf_loopDrive_self (j : Nat) (d : Drive) :
    writesOf j (loopDrive j d).2 = (loopDrive j d).2 := by
  unfold writesOf
  rw [List.filter_eq_self]
  intro w hw
  simpa using loopDrive_drive j d w hw

theorem writesOf_loopDrive_ne (i j : Nat) (d : Drive) (h : j ≠ i) :
    writesOf i (loopDrive j d).2 = [] := by
  unfold writesOf
  rw [List.filter_eq_nil_iff]
  intro w hw
  have := loopDrive_drive j d w hw
  simp only [decide_eq_true_eq]
  omega

theorem writesOf_loopFrom_lt (i j : Nat) (ds : List Drive) (h : i < j) :
    writesOf i (loopFrom j ds).2 = [] := by
  unfold writesOf
  rw [List.filter_eq_nil_iff]
  intro w hw
  have := loopFrom_drive_ge ds j w hw
  simp only [decide_eq_true_eq]
  omega

theorem loopFrom_getElem? : ∀ (ds : List Drive) (j i : Nat),
    (loopFrom j ds).1[i]? = (ds[i]?).map fun d => (loopDrive (j + i) d).1
  | [], _, _ => by simp [loopFrom]
  | d :: ds, j, 0 => by simp [loopFrom]
  | d :: ds, j, i + 1 => by
    simp only [loopFrom, List.getElem?_cons_succ]
    rw [loopFrom_getElem? ds (j + 1) i]
    have : j + 1 + i = j + (i + 1) := by omega
    rw [this]

theorem writesOf_loopFrom : ∀ (ds : List Drive) (j i : Nat),
    writesOf (j + i) (loopFrom j ds).2 =
      match ds[i]? with
      | some d => (loopDrive (j + i) d).2
      | none => []
  | [], _, _ => by simp [loopFrom, writesOf]
  | d :: ds, j, 0 => by
    simp only [loopFrom, writesOf_append, Nat.add_zero, List.getElem?_cons_zero]
    rw [writesOf_loopDrive_self, writesOf_loopFrom_lt j (j + 1) ds (by omega), List.append_nil]
  | d :: ds, j, i + 1 => by
    simp only [loopFrom, writesOf_append, List.getElem?_cons_succ]
    rw [writesOf_loopDrive_ne (j + (i + 1)) j d (by omega), List.nil_append]
    have : j + (i + 1) = j + 1 + i := by omega
    rw [this]
    exact writesOf_loopFrom ds (j + 1) i

theorem loopIter_getElem? (ds : List Drive) (i : Nat) :
    (loopIter ds).1[i]? = (ds[i]?).map fun d => (loopDrive i d).1 := by
  simpa [loopIter] using loopFrom_getElem? ds 0 i

theorem writesOf_loopIter (ds : List Drive) (i : Nat) (d : Drive) (hd : ds[i]? = some d) :
    writesOf i (loopIter ds).2 = (loopDrive i d).2 := by
  have := writesOf_loopFrom ds 0 i
  simp only [Nat.zero_add, hd] at this
  simpa [loopIter] using this

theorem stepPulses_append (i : Nat) (t1 t2 : List GpioWrite) :
    stepPulses i (t1 ++ t2) = stepPulses i t1 + stepPulses i t2 := by
  simp [stepPulses]

theorem stepPulses_writesOf (i : Nat) (t : List GpioWrite) :
    stepPulses i (writesOf i t) = stepPulses i t := by
  unfold stepPulses writesOf
  rw [List.countP_filter]
  congr 1
  funext w
  by_cases h : w.drive = i <;> simp [h]

theorem stop_getElem?_ne (ds : List Drive) (drive : Int) (i : Nat) (h : drive ≠ (i : Int)) :
    (stop ds drive)[i]? = ds[i]? :=
  update_getElem?_ne ds drive _ i h

theorem play_getElem?_ne (ds : List Drive) (drive : Int) (f : ℚ) (i : Nat)
    (h : drive ≠ (i : Int)) : (play ds drive f)[i]? = ds[i]? := by
  unfold play
  split
  · exact stop_getElem?_ne ds drive i h
  · exact update_getElem?_ne ds drive _ i h

/-- Actions that do not command the drive `i` act on its record as the sweeps alone. -/
theorem runActions_project (i : Nat) : ∀ (acts : List Action) (ds : List Drive) (d : Drive),
    ds[i]? = some d → (∀ a ∈ acts, a.commands (i : Int) = false) →
    (runActions ds acts).1[i]? = some (sweepsDrive i (sweepCount acts) d).1 ∧
      writesOf i (runActions ds acts).2 = (sweepsDrive i (sweepCount acts) d).2
  | [], ds, d, hd, _ => by simp [runActions, sweepCount, sweepsDrive, hd, writesOf]
  | a :: acts, ds, d, hd, h => by
    have ha := h a (List.mem_cons_self _ _)
    have hacts : ∀ b ∈ acts, b.commands (i : Int) = false :=
      fun b hb => h b (List.mem_cons_of_mem _ hb)
    cases a with
    | sweep =>
      have h1 : (loopIter ds).1[i]? = some (loopDrive i d).1 := by
        rw [loopIter_getElem?, hd]; rfl
      have ih := runActions_project i acts (loopIter ds).1 (loopDrive i d).1 h1 hacts
      have hc : sweepCount (Action.sweep :: acts) = sweepCount acts + 1 := by
        simp [sweepCount, Action.isSweep]
      simp only [runActions, applyAction, hc, sweepsDrive, writesOf_append]
      rw [ih.1, ih.2, writesOf_loopIter ds i d hd]
      exact ⟨rfl, rfl⟩
    | play drive f =>
      have hne : drive ≠ (i : Int) := by simpa [Action.commands] using ha
      have h1 : (play ds drive f)[i]? = some d := by rw [play_getElem?_ne ds drive f i hne, hd]
      have ih := runActions_project i acts (play ds drive f) d h1 hacts
      have hc : sweepCount (Action.play drive f :: acts) = sweepCount acts := by
        simp [sweepCount, Action.isSweep]
      simp only [runActions, applyAction, hc, List.nil_append]
      exact ih
    | stop drive =>
      have hne : drive ≠ (i : Int) := by simpa [Action.commands] using ha
      have h1 : (stop ds drive)[i]? = some d := by rw [stop_getElem?_ne ds drive i hne, hd]
      have ih := runActions_project i acts (stop ds drive) d h1 hacts
      have hc : sweepCount (Action.stop drive :: acts) = sweepCount acts := by
        simp [sweepCount, Action.isSweep]
      simp only [runActions, applyAction, hc, List.nil_append]
      exact ih

theorem loopDrive_idle (j : Nat) (d : Drive) (h : d.maxticks = -1) : loopDrive j d = (d, []) := by
  simp [loopDrive, h]

theorem loopDrive_wait (j : Nat) (d : Drive) (h0 : 0 ≤ d.ticks) (h1 : d.ticks + 1 < d.maxticks)
    (h2 : d.maxticks < 2147483648) :
    loopDrive j d = ({ d with ticks := d.ticks + 1 }, []) := by
  have hw : wrapInt (d.ticks + 1) = d.ticks + 1 := wrapInt_of_range (by omega) (by omega)
  have hm : d.maxticks ≠ -1 := by omega
  simp only [loopDrive, hm, if_false, hw]
  rw [if_neg (by omega)]

theorem loopDrive_due (j : Nat) (d : Drive) (h0 : 0 ≤ d.ticks) (h1 : d.maxticks ≤ d.ticks + 1)
    (h2 : d.ticks < 2147483647) (hm : d.maxticks ≠ -1) :
    (loopDrive j d).1.ticks = 0 ∧ (loopDrive j d).1.maxticks = d.maxticks ∧
      stepPulses j (loopDrive j d).2 = 1 := by
  have hw : wrapInt (d.ticks + 1) = d.ticks + 1 := wrapInt_of_range (by omega) (by omega)
  simp only [loopDrive, hm, if_false, hw]
  rw [if_pos (by omega)]
  split <;> simp [stepPulses, pulse, List.countP_cons]

theorem sweepsDrive_succ (j n : Nat) (d : Drive) :
    sweepsDrive j (n + 1) d =
      ((sweepsDrive j n (loopDrive j d).1).1,
        (loopDrive j d).2 ++ (sweepsDrive j n (loopDrive j d).1).2) := rfl

/-- The cadence of an active drive: with `maxticks = m ≥ 1` and `0 ≤ ticks < m`, after
`n` sweeps `ticks` is `(ticks + n) mod m` and `(ticks + n) div m` pulses were made. -/
theorem sweepsDrive_cadence (j : Nat) : ∀ (n : Nat) (d : Drive), 1 ≤ d.maxticks →
    d.maxticks < 2147483648 → 0 ≤ d.ticks → d.ticks < d.maxticks →
    (sweepsDrive j n d).1.maxticks = d.maxticks ∧
      (sweepsDrive j n d).1.ticks = (d.ticks + n) % d.maxticks ∧
      (stepPulses j (sweepsDrive j n d).2 : Int) = (d.ticks + n) / d.maxticks
  | 0, d, h1, _, h3, h4 => by
    simp [sweepsDrive, stepPulses, Int.emod_eq_of_lt h3 h4, Int.ediv_eq_zero_of_lt h3 h4]
  | n + 1, d, h1, h2, h3, h4 => by
    rw [sweepsDrive_succ]
    by_cases hdue : d.maxticks ≤ d.ticks + 1
    · obtain ⟨e1, e2, e3⟩ := loopDrive_due j d h3 hdue (by omega) (by omega)
      obtain ⟨i1, i2, i3⟩ := sweepsDrive_cadence j n (loopDrive j d).1
        (by rw [e2]; exact h1) (by rw [e2]; exact h2) (by rw [e1]) (by rw [e1, e2]; omega)
      rw [e1, e2] at i2 i3
      rw [e2] at i1
      have hsum : d.ticks + ((n + 1 : Nat) : Int) = (n : Int) + d.maxticks * 1 := by
        push_cast; omega
      refine ⟨i1, ?_, ?_⟩
      · simp only []
        rw [i2, hsum, Int.add_mul_emod_self_left, Int.zero_add]
      · rw [stepPulses_append]
        push_cast
        rw [e3, i3]
        rw [show d.ticks + ((n : Int) + 1) = (n : Int) + d.maxticks * 1 by omega,
          Int.add_mul_ediv_left _ _ (by omega), Int.zero_add]
        push_cast
        omega
    · have e := loopDrive_wait j d h3 (by omega) h2
      obtain ⟨i1, i2, i3⟩ := sweepsDrive_cadence j n (loopDrive j d).1
        (by rw [e]; exact h1) (by rw [e]; exact h2) (by rw [e]; simp only []; omega)
        (by rw [e]; simp only []; omega)
      rw [e] at i1 i2 i3
      simp only [] at i1 i2 i3
      rw [e]
      refine ⟨i1, ?_, ?_⟩
      · simp only []
        rw [i2]
        congr 1
        push_cast; omega
      · simp only [List.nil_append]
        rw [i3]
        congr 1
        omega

theorem play_getElem?_self (ds : List Drive) (i : Nat) (f : ℚ) (hf : f ≠ 0) :
    (play ds (i : Int) f)[i]? =
      (ds[i]?).map fun d =>
        { d with ticks := 0, maxticks := doubleToInt ((RESOLUTION : ℚ) / f) } := by
  unfold play
  rw [if_neg hf, update_getElem?_self]

theorem doubleToInt_of_floor {q : ℚ} {n : Int} (h : 0 ≤ q) (hn : ⌊q⌋ = n)
    (hr : n ≤ 2147483647) : doubleToInt q = n := by
  rw [doubleToInt_of_range h (by rw [hn]; exact hr), hn]

theorem doubleToInt_lt (q : ℚ) : doubleToInt q < 2147483648 := by
  unfold doubleToInt
  split
  · rename_i h; omega
  · decide

/-- The registry after `play` on the only drive of a one-drive configuration. -/
theorem play_single (dir step : Int) (f : ℚ) (hf : f ≠ 0) :
    play (create [⟨dir, step⟩]) 0 f =
      [⟨0, 0, dir, step, 0, doubleToInt ((RESOLUTION : ℚ) / f), 0, true⟩] := by
  simp [play, hf, update, create]

theorem stop_getElem?_self (ds : List Drive) (i : Nat) :
    (stop ds (i : Int))[i]? = (ds[i]?).map fun d => { d with maxticks := -1 } :=
  update_getElem?_self ds i _

/-- An idle drive stays as it is, and silent, under sweeps, under `stop`, and under
commands to other drives. -/
theorem runActions_idle (i : Nat) : ∀ (acts : List Action) (ds : List Drive) (d : Drive),
    ds[i]? = some d → d.maxticks = -1 → (∀ a ∈ acts, a.plays (i : Int) = false) →
    (runActions ds acts).1[i]? = some d ∧ writesOf i (runActions ds acts).2 = []
  | [], ds, d, hd, _, _ => by simp [runActions, hd, writesOf]
  | a :: acts, ds, d, hd, hm, h => by
    have ha := h a (List.mem_cons_self _ _)
    have hacts : ∀ b ∈ acts, b.plays (i : Int) = false :=
      fun b hb => h b (List.mem_cons_of_mem _ hb)
    cases a with
    | sweep =>
      have h1 : (loopIter ds).1[i]? = some d := by
        rw [loopIter_getElem?, hd, Option.map_some', loopDrive_idle i d hm]
      have ih := runActions_idle i acts (loopIter ds).1 d h1 hm hacts
      simp only [runActions, applyAction, writesOf_append]
      rw [writesOf_loopIter ds i d hd, loopDrive_idle i d hm]
      exact ⟨ih.1, by simpa using ih.2⟩
    | play drive f =>
      have hne : drive ≠ (i : Int) := by simpa [Action.plays] using ha
      have h1 : (play ds drive f)[i]? = some d := by rw [play_getElem?_ne ds drive f i hne, hd]
      have ih := runActions_idle i acts (play ds drive f) d h1 hm hacts
      simpa [runActions, applyAction] using ih
    | stop drive =>
      have h1 : (stop ds drive)[i]? = some d := by
        by_cases hne : drive = (i : Int)
        · subst hne
          rw [stop_getElem?_self, hd, Option.map_some', ← hm]
        · rw [stop_getElem?_ne ds drive i hne, hd]
      have ih := runActions_idle i acts (stop ds drive) d h1 hm hacts
      simpa [runActions, applyAction] using ih

/-! ## Properties of the channel map -/

theorem mapFind_mem : ∀ (m : List (Int × Int)) (c v : Int), mapFind m c = some v → (c, v) ∈ m
  | [], _, _, h => by simp [mapFind] at h
  | (k, w) :: rest, c, v, h => by
    unfold mapFind at h
    split at h
    · rename_i hk
      cases h
      simp [hk]
    · exact List.mem_cons_of_mem _ (mapFind_mem rest c v h)

theorem mapFind_eq_none_of_lt : ∀ (m : List (Int × Int)) (c : Int),
    (∀ e ∈ m, c < e.1) → mapFind m c = none
  | [], _, _ => rfl
  | (k, w) :: rest, c, h => by
    have hk : c < k := h (k, w) (List.mem_cons_self _ _)
    unfold mapFind
    rw [if_neg (by omega)]
    exact mapFind_eq_none_of_lt rest c fun e he => h e (List.mem_cons_of_mem _ he)

theorem mapFind_mapAssign : ∀ (m : List (Int × Int)) (c v c' : Int),
    mapFind (mapAssign m c v) c' = if c' = c then some v else mapFind m c'
  | [], c, v, c' => by
    simp only [mapAssign, mapFind]
    by_cases h : c' = c
    · simp [h]
    · rw [if_neg (fun hc => h hc.symm), if_neg h]
  | (k, w) :: rest, c, v, c' => by
    unfold mapAssign
    by_cases h1 : c < k
    · rw [if_pos h1]
      by_cases h : c' = c
      · simp [mapFind, h]
      · rw [if_neg h]
        conv_lhs => unfold mapFind
        rw [if_neg (fun hc => h hc.symm)]
    · rw [if_neg h1]
      by_cases h2 : c = k
      · rw [if_pos h2]
        subst h2
        by_cases h : c' = c
        · simp [mapFind, h]
        · rw [if_neg h]
          simp only [mapFind]
          rw [if_neg (fun hc => h hc.symm), if_neg (fun hc => h hc.symm)]
      · rw [if_neg h2]
        simp only [mapFind]
        by_cases h3 : k = c'
        · have : c' ≠ c := by omega
          simp [h3, this]
        · rw [if_neg h3, if_neg h3]
          exact mapFind_mapAssign rest c v c'

theorem mapFind_mapErase_ne : ∀ (m : List (Int × Int)) (c c' : Int), c' ≠ c →
    mapFind (mapErase m c) c' = mapFind m c'
  | [], _, _, _ => rfl
  | (k, w) :: rest, c, c', h => by
    unfold mapErase
    by_cases h1 : k = c
    · rw [if_pos h1]
      conv_rhs => unfold mapFind
      rw [if_neg (by omega)]
    · rw [if_neg h1]
      simp only [mapFind]
      rw [mapFind_mapErase_ne rest c c' h]

theorem mapFind_mapErase_self : ∀ (m : List (Int × Int)) (c : Int), keysAscending m →
    mapFind (mapErase m c) c = none
  | [], _, _ => rfl
  | (k, w) :: rest, c, h => by
    have hp := List.pairwise_cons.mp h
    unfold mapErase
    by_cases h1 : k = c
    · rw [if_pos h1]
      exact mapFind_eq_none_of_lt rest c fun e he => by
        have := hp.1 e he
        simp only at this
        omega
    · rw [if_neg h1]
      simp only [mapFind]
      rw [if_neg h1]
      exact mapFind_mapErase_self rest c hp.2

theorem mapAssign_of_mapFind : ∀ (m : List (Int × Int)) (c v : Int), keysAscending m →
    mapFind m c = some v → mapAssign m c v = m
  | [], _, _, _, h => by simp [mapFind] at h
  | (k, w) :: rest, c, v, ha, h => by
    have hp := List.pairwise_cons.mp ha
    unfold mapFind at h
    unfold mapAssign
    by_cases h1 : k = c
    · rw [if_pos h1] at h
      cases h
      rw [if_neg (by omega), if_pos h1.symm, h1]
    · rw [if_neg h1] at h
      have hlt : k < c := by
        have := hp.1 (c, v) (mapFind_mem rest c v h)
        simpa using this
      rw [if_neg (by omega), if_neg (by omega), mapAssign_of_mapFind rest c v hp.2 h]

theorem mapAssign_mem : ∀ (m : List (Int × Int)) (c v : Int) (e : Int × Int),
    e ∈ mapAssign m c v → e = (c, v) ∨ e ∈ m
  | [], c, v, e, h => by
    simp only [mapAssign, List.mem_singleton] at h
    exact Or.inl h
  | (k, w) :: rest, c, v, e, h => by
    unfold mapAssign at h
    split at h
    · rcases List.mem_cons.mp h with h | h
      · exact Or.inl h
      · exact Or.inr h
    · split at h
      · rcases List.mem_cons.mp h with h | h
        · exact Or.inl h
        · exact Or.inr (List.mem_cons_of_mem _ h)
      · rcases List.mem_cons.mp h with h | h
        · exact Or.inr (h ▸ List.mem_cons_self _ _)
        · rcases mapAssign_mem rest c v e h with h | h
          · exact Or.inl h
          · exact Or.inr (List.mem_cons_of_mem _ h)

theorem keysAscending_mapAssign : ∀ (m : List (Int × Int)) (c v : Int), keysAscending m →
    keysAscending (mapAssign m c v)
  | [], c, v, _ => by simp [mapAssign, keysAscending]
  | (k, w) :: rest, c, v, ha => by
    have hp := List.pairwise_cons.mp ha
    unfold mapAssign
    split
    · rename_i h1
      refine List.pairwise_cons.mpr ⟨?_, ha⟩
      intro e he
      rcases List.mem_cons.mp he with h | h
      · subst h; exact h1
      · have := hp.1 e h
        simp only at this ⊢
        omega
    · split
      · rename_i h1 h2
        subst h2
        exact List.pairwise_cons.mpr ⟨hp.1, hp.2⟩
      · rename_i h1 h2
        refine List.pairwise_cons.mpr ⟨?_, keysAscending_mapAssign rest c v hp.2⟩
        intro e he
        rcases mapAssign_mem rest c v e he with h | h
        · subst h
          simp only
          omega
        · exact hp.1 e h

theorem mapErase_mem : ∀ (m : List (Int × Int)) (c : Int) (e : Int × Int),
    e ∈ mapErase m c → e ∈ m
  | [], _, _, h => by simp [mapErase] at h
  | (k, w) :: rest, c, e, h => by
    unfold mapErase at h
    split at h
    · exact List.mem_cons_of_mem _ h
    · rcases List.mem_cons.mp h with h | h
      · exact h ▸ List.mem_cons_self _ _
      · exact List.mem_cons_of_mem _ (mapErase_mem rest c e h)

theorem keysAscending_mapErase : ∀ (m : List (Int × Int)) (c : Int), keysAscending m →
    keysAscending (mapErase m c)
  | [], _, _ => by simp [mapErase, keysAscending]
  | (k, w) :: rest, c, ha => by
    have hp := List.pairwise_cons.mp ha
    unfold mapErase
    split
    · exact hp.2
    · exact List.pairwise_cons.mpr
        ⟨fun e he => hp.1 e (mapErase_mem rest c e he), keysAscending_mapErase rest c hp.2⟩

/-! ## Properties of the occupancy mask -/

theorem shl1_natCast (k : Nat) : shl1 (k : Int) = 2 ^ (k % 32) := by
  unfold shl1
  congr 1

theorem shl1_of_lt (k : Nat) (h : k < 32) : shl1 (k : Int) = 2 ^ k := by
  rw [shl1_natCast, Nat.mod_eq_of_lt h]

theorem shl1_lt (k : Int) : shl1 k < 4294967296 := by
  unfold shl1
  have h : (k % 32).toNat < 32 := by omega
  calc 2 ^ (k % 32).toNat < 2 ^ 32 := Nat.pow_lt_pow_right (by decide) h
    _ = 4294967296 := by norm_num

theorem free_test (pool k : Nat) (h : k < 32) :
    (pool &&& shl1 (k : Int) == 0) = !pool.testBit k := by
  rw [shl1_of_lt k h, Nat.and_two_pow]
  cases pool.testBit k <;> simp

/-- The test of the search looks at the bit of the drive number modulo 32. -/
theorem free_test_mod (pool k : Nat) :
    (pool &&& shl1 (k : Int) == 0) = !pool.testBit (k % 32) := by
  rw [shl1_natCast, Nat.and_two_pow]
  cases pool.testBit (k % 32) <;> simp

theorem testBit_or_shl1 (pool k j : Nat) (h : k < 32) :
    (pool ||| shl1 (k : Int)).testBit j = (pool.testBit j || decide (k = j)) := by
  rw [shl1_of_lt k h, Nat.testBit_or, Nat.testBit_two_pow]

theorem testBit_xor_shl1 (pool k j : Nat) (h : k < 32) :
    (pool ^^^ shl1 (k : Int)).testBit j = (pool.testBit j ^^ decide (k = j)) := by
  rw [shl1_of_lt k h, Nat.testBit_xor, Nat.testBit_two_pow]

/-- The first hit of a search over `0 .. n-1`. -/
theorem find?_range (p : Nat → Bool) : ∀ n : Nat,
    ((List.range n).find? p = none ∧ ∀ j < n, p j = false) ∨
      ∃ k, k < n ∧ (List.range n).find? p = some k ∧ p k = true ∧ ∀ j < k, p j = false
  | 0 => Or.inl ⟨rfl, fun j hj => absurd hj (Nat.not_lt_zero j)⟩
  | n + 1 => by
    rw [List.range_succ, List.find?_append]
    rcases find?_range p n with ⟨h1, h2⟩ | ⟨k, hk, h1, h2, h3⟩
    · rw [h1]
      by_cases hp : p n = true
      · refine Or.inr ⟨n, by omega, ?_, hp, h2⟩
        simp [hp]
      · refine Or.inl ⟨by simp [hp], ?_⟩
        intro j hj
        rcases Nat.lt_succ_iff_lt_or_eq.mp hj with h | h
        · exact h2 j h
        · subst h; simpa using hp
    · exact Or.inr ⟨k, by omega, by rw [h1]; rfl, h2, h3⟩

/-- What the search for a free drive returns. -/
theorem freeDrive_cases (pool dcount : Nat) :
    (freeDrive pool dcount = -1 ∧ ∀ j < dcount, (pool &&& shl1 (j : Int) == 0) = false) ∨
      ∃ k : Nat, k < dcount ∧ freeDrive pool dcount = (k : Int) ∧
        (pool &&& shl1 (k : Int) == 0) = true ∧
        ∀ j < k, (pool &&& shl1 (j : Int) == 0) = false := by
  unfold freeDrive
  rcases find?_range (fun check : Nat => pool &&& shl1 (check : Int) == 0) dcount with
    ⟨h1, h2⟩ | ⟨k, hk, h1, h2, h3⟩
  · exact Or.inl ⟨by rw [h1], h2⟩
  · exact Or.inr ⟨k, hk, by rw [h1], h2, h3⟩

/-- The search in terms of the bits of the mask: it fails when the bit of every drive number
modulo 32 is set, and what it finds is below 32, the lowest drive whose bit is clear. -/
theorem freeDrive_found (pool dcount : Nat) :
    (freeDrive pool dcount = -1 ∧ ∀ j < dcount, pool.testBit (j % 32) = true) ∨
      ∃ k : Nat, k < dcount ∧ k < 32 ∧ freeDrive pool dcount = (k : Int) ∧
        pool.testBit k = false ∧ ∀ j < k, pool.testBit j = true := by
  rcases freeDrive_cases pool dcount with ⟨h1, h2⟩ | ⟨k, hk, h1, h2, h3⟩
  · refine Or.inl ⟨h1, ?_⟩
    intro j hj
    have := h2 j hj
    rw [free_test_mod] at this
    simpa using this
  · have hk32 : k < 32 := by
      by_contra hge
      have hlow := h3 (k - 32) (by omega)
      rw [free_test_mod] at hlow h2
      have hmod : (k - 32) % 32 = k % 32 := by omega
      rw [hmod, h2] at hlow
      cases hlow
    refine Or.inr ⟨k, hk, hk32, h1, ?_, ?_⟩
    · rw [free_test pool k hk32] at h2
      simpa using h2
    · intro j hj
      have := h3 j hj
      rw [free_test pool j (by omega)] at this
      simpa using this

/-- The search returns the lowest drive whose bit is clear, when that drive is below 32. -/
theorem freeDrive_eq_first (pool dcount i : Nat) (hi : i < dcount) (h32 : i < 32)
    (hfree : pool.testBit i = false) (hocc : ∀ j < i, pool.testBit j = true) :
    freeDrive pool dcount = (i : Int) := by
  rcases freeDrive_found pool dcount with ⟨_, h2⟩ | ⟨k, hk, _, h1, h2, h3⟩
  · have := h2 i hi
    rw [Nat.mod_eq_of_lt h32, hfree] at this
    cases this
  · rw [h1]
    rcases Nat.lt_trichotomy k i with h | h | h
    · rw [hocc k h] at h2
      cases h2
    · rw [h]
    · have := h3 i h
      rw [hfree] at this
      cases this

/-- The search fails when the bit of every drive number modulo 32 is set. -/
theorem freeDrive_eq_neg_one (pool dcount : Nat)
    (hocc : ∀ j < dcount, pool.testBit (j % 32) = true) : freeDrive pool dcount = -1 := by
  rcases freeDrive_found pool dcount with ⟨h1, _⟩ | ⟨k, hk, hk32, _, h2, _⟩
  · exact h1
  · have := hocc k hk
    rw [Nat.mod_eq_of_lt hk32, h2] at this
    cases this

theorem ones_or_next (k : Nat) : (2 ^ k - 1) ||| 2 ^ k = 2 ^ (k + 1) - 1 := by
  apply Nat.eq_of_testBit_eq
  intro j
  rw [Nat.testBit_or, Nat.testBit_two_pow_sub_one, Nat.testBit_two_pow_sub_one,
    Nat.testBit_two_pow]
  by_cases h1 : j < k
  · have : j < k + 1 := by omega
    simp [h1, this]
  · by_cases h2 : k = j
    · have : j < k + 1 := by omega
      simp [h2, this]
    · have : ¬ j < k + 1 := by omega
      simp [h1, h2, this]

/-- A Note-On on a fresh channel when exactly the drives `0 .. k-1` are taken. -/
theorem handleEvent_noteOn_fill (arguments : Arguments) (dcount : Nat) (st : PlayState)
    (channel : Int) (note : Nat) (k : Nat) (hk : k < dcount) (hk32 : k < 32)
    (hpool : st.pool_free = 2 ^ k - 1) (hunmapped : mapFind st.channel_map channel = none) :
    (handleEvent arguments dcount st (Event.noteOn false channel note)).1 =
      { channel_map := mapAssign st.channel_map channel (k : Int),
        pool_free := 2 ^ (k + 1) - 1 } := by
  have hfd : freeDrive st.pool_free dcount = (k : Int) := by
    apply freeDrive_eq_first st.pool_free dcount k hk hk32
    · rw [hpool, Nat.testBit_two_pow_sub_one]; simp
    · intro j hj
      rw [hpool, Nat.testBit_two_pow_sub_one]; simpa using hj
  have hne : ((k : Int) ≠ -1) := by omega
  simp only [handleEvent, hunmapped, hfd, Bool.false_eq_true, if_false]
  rw [if_pos hne, shl1_of_lt k hk32, hpool, ones_or_next]

/-- A Note-On on a fresh channel when the search finds no drive: the bits `0 .. k-1` are set,
where `k` is the number of drives, or 32 if there are more. -/
theorem handleEvent_noteOn_full (arguments : Arguments) (dcount : Nat) (st : PlayState)
    (channel : Int) (note : Nat) (hpool : st.pool_free = 2 ^ min dcount 32 - 1)
    (hunmapped : mapFind st.channel_map channel = none) :
    handleEvent arguments dcount st (Event.noteOn false channel note) = (st, []) := by
  have hfd : freeDrive st.pool_free dcount = -1 := by
    apply freeDrive_eq_neg_one
    intro j hj
    rw [hpool, Nat.testBit_two_pow_sub_one]
    have : j % 32 < min dcount 32 := by omega
    simpa using this
  simp [handleEvent, hunmapped, hfd]

theorem playLoop_cons (arguments : Arguments) (dcount : Nat) (st : PlayState) (e : Event)
    (es : List Event) :
    playLoop arguments dcount st (e :: es) =
      ((playLoop arguments dcount (handleEvent arguments dcount st e).1 es).1,
        (handleEvent arguments dcount st e).2 ++
          (playLoop arguments dcount (handleEvent arguments dcount st e).1 es).2) := rfl

/-- Note-On events on fresh, distinct channels take the drives in ascending order, until the
drives, or the 32 bits of the mask, are used up. -/
theorem playLoop_fill (arguments : Arguments) (dcount : Nat) :
    ∀ (ons : List (Int × Nat)) (st : PlayState) (k : Nat), st.pool_free = 2 ^ k - 1 →
      k ≤ min dcount 32 → (ons.map Prod.fst).Nodup →
      (∀ e ∈ ons, mapFind st.channel_map e.1 = none) →
      (playLoop arguments dcount st
          (ons.map fun e => Event.noteOn false e.1 e.2)).1.pool_free =
        2 ^ min (k + ons.length) (min dcount 32) - 1 ∧
      (∀ c, c ∉ ons.map Prod.fst →
        mapFind (playLoop arguments dcount st
          (ons.map fun e => Event.noteOn false e.1 e.2)).1.channel_map c =
            mapFind st.channel_map c) ∧
      ∀ (j : Nat) (e : Int × Nat), ons[j]? = some e → k + j < min dcount 32 →
        mapFind (playLoop arguments dcount st
          (ons.map fun e => Event.noteOn false e.1 e.2)).1.channel_map e.1 =
            some ((k + j : Nat) : Int)
  | [], st, k, hpool, hk, _, _ => by
    have : min k (min dcount 32) = k := by omega
    simp [playLoop, hpool, this]
  | (c0, n0) :: rest, st, k, hpool, hk, hnd, hun => by
    have hnd' : c0 ∉ rest.map Prod.fst ∧ (rest.map Prod.fst).Nodup :=
      List.nodup_cons.mp (by rw [List.map_cons] at hnd; exact hnd)
    simp only [List.map_cons, playLoop_cons, List.length_cons]
    by_cases hlt : k < min dcount 32
    · have h0 := handleEvent_noteOn_fill arguments dcount st c0 n0 k (by omega) (by omega) hpool
        (hun (c0, n0) (List.mem_cons_self _ _))
      have hun' : ∀ e ∈ rest,
          mapFind (handleEvent arguments dcount st (Event.noteOn false c0 n0)).1.channel_map e.1
            = none := by
        intro e he
        rw [h0]
        simp only [mapFind_mapAssign]
        have hne : e.1 ≠ c0 := by
          intro hc
          apply hnd'.1
          rw [← hc]
          exact List.mem_map_of_mem Prod.fst he
        rw [if_neg hne]
        exact hun e (List.mem_cons_of_mem _ he)
      obtain ⟨i1, i2, i3⟩ := playLoop_fill arguments dcount rest
        (handleEvent arguments dcount st (Event.noteOn false c0 n0)).1 (k + 1)
        (by rw [h0]) (by omega) hnd'.2 hun'
      refine ⟨?_, ?_, ?_⟩
      · rw [i1]
        congr 2
        omega
      · intro c hc
        have hc' : c ≠ c0 ∧ c ∉ rest.map Prod.fst := by
          simpa [not_or] using hc
        rw [i2 c hc'.2, h0]
        simp only [mapFind_mapAssign]
        rw [if_neg hc'.1]
      · intro j e hj hkj
        cases j with
        | zero =>
          simp only [List.getElem?_cons_zero, Option.some.injEq] at hj
          subst hj
          rw [i2 c0 hnd'.1, h0]
          simp only [mapFind_mapAssign, if_true, Nat.add_zero]
        | succ j =>
          rw [List.getElem?_cons_succ] at hj
          have := i3 j e hj (by omega)
          rw [this]
          congr 2
          omega
    · have hkm : k = min dcount 32 := by omega
      have h0 := handleEvent_noteOn_full arguments dcount st c0 n0 (by rw [hpool, hkm])
        (hun (c0, n0) (List.mem_cons_self _ _))
      rw [h0]
      obtain ⟨i1, i2, _⟩ := playLoop_fill arguments dcount rest st k hpool hk hnd'.2
        (fun e he => hun e (List.mem_cons_of_mem _ he))
      refine ⟨?_, ?_, ?_⟩
      · rw [i1]
        congr 2
        omega
      · intro c hc
        have hc' : c ≠ c0 ∧ c ∉ rest.map Prod.fst := by
          simpa [not_or] using hc
        exact i2 c hc'.2
      · intro j e _ hkj
        omega

/-- Setting the bit of a drive that is marked already changes nothing. -/
theorem or_shl1_of_marked (pool : Nat) (v : Int) (h0 : 0 ≤ v) (h32 : v < 32)
    (hm : pool.testBit v.toNat = true) : pool ||| shl1 v = pool := by
  obtain ⟨n, rfl⟩ := Int.eq_ofNat_of_zero_le h0
  have h : n < 32 := by omega
  apply Nat.eq_of_testBit_eq
  intro j
  rw [testBit_or_shl1 pool n j h]
  by_cases hj : n = j
  · subst hj
    rw [Int.toNat_natCast] at hm
    simp [hm]
  · simp [hj]

theorem wellFormed_empty (dcount : Nat) : WellFormed dcount PlayState.empty where
  ascending := List.Pairwise.nil
  range := fun c v h => by simp [PlayState.empty, mapFind] at h
  marked := fun c v h => by simp [PlayState.empty, mapFind] at h
  unique := fun c c' v h => by simp [PlayState.empty, mapFind] at h
  width := by decide

/-- A Note-On on a channel that holds a drive leaves the state as it is. -/
theorem handleEvent_noteOn_mapped (arguments : Arguments) (dcount : Nat) (st : PlayState)
    (hwf : WellFormed dcount st) (channel i : Int) (note : Nat)
    (hmapped : mapFind st.channel_map channel = some i) :
    handleEvent arguments dcount st (Event.noteOn false channel note) =
      (st, [Effect.play i (pitch arguments note)]) := by
  have hr := hwf.range channel i hmapped
  have hne : i ≠ -1 := by omega
  simp only [handleEvent, hmapped, Bool.false_eq_true, if_false]
  rw [if_pos hne, mapAssign_of_mapFind _ _ _ hwf.ascending hmapped,
    or_shl1_of_marked _ i hr.1 hr.2.2 (hwf.marked channel i hmapped)]

theorem handleEvent_noteOff_mapped (arguments : Arguments) (dcount : Nat) (st : PlayState)
    (channel i : Int) (hmapped : mapFind st.channel_map channel = some i) :
    handleEvent arguments dcount st (Event.noteOff false channel) =
      ({ channel_map := mapErase st.channel_map channel,
         pool_free := st.pool_free ^^^ shl1 i }, [Effect.stop i]) := by
  simp [handleEvent, hmapped]

theorem handleEvent_noteOff_unmapped (arguments : Arguments) (dcount : Nat) (st : PlayState)
    (muted : Bool) (channel : Int) (hunmapped : mapFind st.channel_map channel = none) :
    handleEvent arguments dcount st (Event.noteOff muted channel) = (st, []) := by
  cases muted <;> simp [handleEvent, hunmapped]

theorem handleEvent_noteOn_unmapped (arguments : Arguments) (dcount : Nat) (st : PlayState)
    (channel : Int) (note : Nat) (hunmapped : mapFind st.channel_map channel = none) :
    handleEvent arguments dcount st (Event.noteOn false channel note) =
      if freeDrive st.pool_free dcount ≠ -1 then
        ({ channel_map := mapAssign st.channel_map channel (freeDrive st.pool_free dcount),
           pool_free := st.pool_free ||| shl1 (freeDrive st.pool_free dcount) },
          [Effect.play (freeDrive st.pool_free dcount) (pitch arguments note)])
      else (st, []) := by
  simp only [handleEvent, hunmapped, Bool.false_eq_true, if_false]

theorem wellFormed_release (dcount : Nat) (st : PlayState) (hwf : WellFormed dcount st)
    (channel i : Int) (hmapped : mapFind st.channel_map channel = some i) :
    WellFormed dcount
      { channel_map := mapErase st.channel_map channel, pool_free := st.pool_free ^^^ shl1 i } := by
  have hfind : ∀ c w, mapFind (mapErase st.channel_map channel) c = some w →
      c ≠ channel ∧ mapFind st.channel_map c = some w := by
    intro c w h
    by_cases hc : c = channel
    · subst hc
      rw [mapFind_mapErase_self _ _ hwf.ascending] at h
      cases h
    · rw [mapFind_mapErase_ne _ _ _ hc] at h
      exact ⟨hc, h⟩
  have hr := hwf.range channel i hmapped
  obtain ⟨n, rfl⟩ := Int.eq_ofNat_of_zero_le hr.1
  have hn : n < 32 := by omega
  refine ⟨keysAscending_mapErase _ _ hwf.ascending, ?_, ?_, ?_, ?_⟩
  · intro c w h
    exact hwf.range c w (hfind c w h).2
  · intro c w h
    obtain ⟨hc, hf⟩ := hfind c w h
    have hset := hwf.marked c w hf
    simp only
    rw [testBit_xor_shl1 _ n _ hn, hset]
    have hne : n ≠ w.toNat := by
      intro he
      have h0 := (hwf.range c w hf).1
      have : w = (n : Int) := by omega
      subst this
      exact hc (hwf.unique c channel _ hf hmapped)
    simp [hne]
  · intro c c' w h h'
    exact hwf.unique c c' w (hfind c w h).2 (hfind c' w h').2
  · exact Nat.xor_lt_two_pow (n := 32) hwf.width (shl1_lt _)

theorem wellFormed_allocate (dcount : Nat) (st : PlayState) (hwf : WellFormed dcount st)
    (channel : Int) (k : Nat) (hk : k < dcount) (hk32 : k < 32)
    (hfree : st.pool_free.testBit k = false) :
    WellFormed dcount
      { channel_map := mapAssign st.channel_map channel (k : Int),
        pool_free := st.pool_free ||| shl1 (k : Int) } := by
  have hbit : ∀ j, st.pool_free.testBit j = true →
      (st.pool_free ||| shl1 (k : Int)).testBit j = true := by
    intro j hj
    rw [Nat.testBit_or, hj, Bool.true_or]
  have hclash : ∀ c, mapFind st.channel_map c = some (k : Int) → False := by
    intro c hc
    have := hwf.marked c _ hc
    rw [Int.toNat_natCast, hfree] at this
    cases this
  refine ⟨keysAscending_mapAssign _ _ _ hwf.ascending, ?_, ?_, ?_, ?_⟩
  · intro c w h
    simp only [mapFind_mapAssign] at h
    split at h
    · cases h
      refine ⟨?_, ?_, ?_⟩ <;> omega
    · exact hwf.range c w h
  · intro c w h
    simp only [mapFind_mapAssign] at h
    simp only
    split at h
    · cases h
      rw [Int.toNat_natCast, testBit_or_shl1 _ k k hk32]
      simp
    · exact hbit _ (hwf.marked c w h)
  · intro c c' w h h'
    simp only [mapFind_mapAssign] at h h'
    split at h
    · rename_i hc
      split at h'
      · rename_i hc'
        rw [hc, hc']
      · cases h
        exact (hclash c' h').elim
    · split at h'
      · cases h'
        exact (hclash c h).elim
      · exact hwf.unique c c' w h h'
  · exact Nat.or_lt_two_pow (n := 32) hwf.width (shl1_lt _)

/-- Every event keeps the state well formed. -/
theorem handleEvent_wellFormed (arguments : Arguments) (dcount : Nat) (st : PlayState)
    (hwf : WellFormed dcount st) (e : Event) :
    WellFormed dcount (handleEvent arguments dcount st e).1 := by
  cases e with
  | noteOff muted channel =>
    cases muted
    · cases hm : mapFind st.channel_map channel with
      | none => rw [handleEvent_noteOff_unmapped arguments dcount st false channel hm]; exact hwf
      | some i =>
        rw [handleEvent_noteOff_mapped arguments dcount st channel i hm]
        exact wellFormed_release dcount st hwf channel i hm
    · simpa [handleEvent] using hwf
  | noteOn muted channel note =>
    cases muted
    · cases hm : mapFind st.channel_map channel with
      | none =>
        rw [handleEvent_noteOn_unmapped arguments dcount st channel note hm]
        rcases freeDrive_found st.pool_free dcount with ⟨h1, _⟩ | ⟨k, hk, hk32, h1, h2, _⟩
        · rw [h1]; simpa using hwf
        · rw [h1, if_pos (by omega)]
          exact wellFormed_allocate dcount st hwf channel k hk hk32 h2
      | some i =>
        rw [handleEvent_noteOn_mapped arguments dcount st hwf channel i note hm]
        exact hwf
    · simpa [handleEvent] using hwf
  | lyrics text =>
    simp only [handleEvent]
    split <;> exact hwf
  | other => exact hwf

theorem playLoop_wellFormed (arguments : Arguments) (dcount : Nat) :
    ∀ (events : List Event) (st : PlayState), WellFormed dcount st →
      WellFormed dcount (playLoop arguments dcount st events).1
  | [], _, h => h
  | e :: es, st, h => by
    rw [playLoop_cons]
    exact playLoop_wellFormed arguments dcount es _
      (handleEvent_wellFormed arguments dcount st h e)

theorem wellFormed_of_reachable (arguments : Arguments) (dcount : Nat) (st : PlayState)
    (h : Reachable arguments dcount st) : WellFormed dcount st := by
  obtain ⟨events, rfl⟩ := h
  exact playLoop_wellFormed arguments dcount events _ (wellFormed_empty dcount)

/-! ## Invariants of the registry -/

theorem update_forall (P : Drive → Prop) (ds : List Drive) (drive : Int) (f : Drive → Drive)
    (hf : ∀ d, P d → P (f d)) (h : ∀ d ∈ ds, P d) : ∀ d ∈ update ds drive f, P d := by
  unfold update
  split
  · exact h
  · split
    · rename_i d0 hd0
      intro d hd
      rcases List.mem_or_eq_of_mem_set hd with h1 | h1
      · exact h d h1
      · rw [h1]
        exact hf d0 (h d0 (List.getElem?_mem hd0))
    · exact h

theorem loopFrom_forall (P : Drive → Prop) (hP : ∀ j d, P d → P (loopDrive j d).1) :
    ∀ (ds : List Drive) (j : Nat), (∀ d ∈ ds, P d) → ∀ d ∈ (loopFrom j ds).1, P d
  | [], _, _, d, hd => by simp [loopFrom] at hd
  | d0 :: ds, j, h, d, hd => by
    simp only [loopFrom, List.mem_cons] at hd
    rcases hd with h1 | h1
    · rw [h1]
      exact hP j d0 (h d0 (List.mem_cons_self _ _))
    · exact loopFrom_forall P hP ds (j + 1) (fun x hx => h x (List.mem_cons_of_mem _ hx)) d h1

/-- A property of the records that every action of a sequence keeps holds after the
sequence. -/
theorem runActions_forall (P : Drive → Prop) : ∀ (acts : List Action) (ds : List Drive),
    (∀ a ∈ acts, ∀ ds' : List Drive, (∀ d ∈ ds', P d) → ∀ d ∈ (applyAction ds' a).1, P d) →
    (∀ d ∈ ds, P d) → ∀ d ∈ (runActions ds acts).1, P d
  | [], _, _, h => h
  | a :: acts, ds, hacts, h => by
    simp only [runActions]
    exact runActions_forall P acts _ (fun b hb => hacts b (List.mem_cons_of_mem _ hb))
      (hacts a (List.mem_cons_self _ _) ds h)

theorem loopDrive_steps_range (j : Nat) (d : Drive) (h : 0 ≤ d.steps ∧ d.steps ≤ MAX_STEPS) :
    0 ≤ (loopDrive j d).1.steps ∧ (loopDrive j d).1.steps ≤ MAX_STEPS := by
  have hw : wrapInt (d.steps + 1) = d.steps + 1 :=
    wrapInt_of_range (by omega) (by have := h.2; simp only [MAX_STEPS] at this; omega)
  unfold loopDrive
  simp only [hw]
  split
  · exact h
  · split
    · split
      · simp [MAX_STEPS]
      · rename_i h1
        simp only [gt_iff_lt, not_lt] at h1
        exact ⟨by simp only []; omega, h1⟩
    · exact h

theorem applyAction_steps_range (a : Action) (ds : List Drive)
    (h : ∀ d ∈ ds, 0 ≤ d.steps ∧ d.steps ≤ MAX_STEPS) :
    ∀ d ∈ (applyAction ds a).1, 0 ≤ d.steps ∧ d.steps ≤ MAX_STEPS := by
  cases a with
  | sweep => exact loopFrom_forall _ loopDrive_steps_range ds 0 h
  | play drive f =>
    simp only [applyAction, play]
    split
    · exact update_forall _ ds drive _ (fun d hd => hd) h
    · exact update_forall _ ds drive _ (fun d hd => hd) h
  | stop drive => exact update_forall _ ds drive _ (fun d hd => hd) h

theorem create_mem (cfg : List DriveCfg) (d : Drive) (hd : d ∈ create cfg) :
    d.ticks = 0 ∧ d.maxticks = -1 ∧ d.steps = 0 ∧ d.direction = true := by
  simp only [create, List.mem_map] at hd
  obtain ⟨c, _, rfl⟩ := hd
  exact ⟨rfl, rfl, rfl, rfl⟩

/-! ## The direction reversal -/

theorem stepPulses_pulseSlot (j p : Nat) : stepPulses j (pulseSlot j p) = 1 := by
  unfold pulseSlot stepPulses pulse
  split <;> simp [List.countP_cons]

theorem pulseTrain_add (j : Nat) : ∀ (n1 n2 p0 : Nat),
    pulseTrain j p0 (n1 + n2) = pulseTrain j p0 n1 ++ pulseTrain j (p0 + n1) n2
  | 0, n2, p0 => by simp [pulseTrain]
  | n1 + 1, n2, p0 => by
    have h : n1 + 1 + n2 = (n1 + n2) + 1 := by omega
    rw [h]
    simp only [pulseTrain, List.append_assoc]
    rw [pulseTrain_add j n1 n2 (p0 + 1)]
    have : p0 + 1 + n1 = p0 + (n1 + 1) := by omega
    rw [this]

/-- One pass of the `for` body over a drive that has made `p0` pulses since its
construction: either nothing is written, or exactly the writes of pulse `p0 + 1`. -/
theorem loopDrive_slot (j : Nat) (d : Drive) (p0 : Nat) (hs : d.steps = ((p0 % 81 : Nat) : Int))
    (hdir : d.direction = decide (p0 / 81 % 2 = 0)) :
    ((loopDrive j d).2 = [] ∧ (loopDrive j d).1.steps = d.steps ∧
        (loopDrive j d).1.direction = d.direction) ∨
      ((loopDrive j d).2 = pulseSlot j (p0 + 1) ∧
        (loopDrive j d).1.steps = (((p0 + 1) % 81 : Nat) : Int) ∧
        (loopDrive j d).1.direction = decide ((p0 + 1) / 81 % 2 = 0)) := by
  have hw : wrapInt (d.steps + 1) = d.steps + 1 := wrapInt_of_range (by omega) (by omega)
  unfold loopDrive
  simp only [hw, MAX_STEPS]
  split
  · exact Or.inl ⟨rfl, rfl, rfl⟩
  · split
    · right
      split
      · rename_i h81
        have hmod : (p0 + 1) % 81 = 0 := by omega
        have hdiv : (p0 + 1) / 81 = p0 / 81 + 1 := by omega
        have hflip : (!d.direction) = decide ((p0 + 1) / 81 % 2 = 0) := by
          rw [hdir, hdiv]
          by_cases hp : p0 / 81 % 2 = 0
          · have : ¬ ((p0 / 81 + 1) % 2 = 0) := by omega
            simp [hp, this]
          · have : (p0 / 81 + 1) % 2 = 0 := by omega
            simp [hp, this]
        refine ⟨?_, ?_, hflip⟩
        · simp only [pulseSlot, hmod, if_true, hflip]
          rfl
        · simp only [hmod]
          rfl
      · rename_i h81
        have hmod : (p0 + 1) % 81 ≠ 0 := by omega
        have hdiv : (p0 + 1) / 81 = p0 / 81 := by omega
        refine ⟨?_, ?_, ?_⟩
        · simp only [pulseSlot, hmod, if_false, List.nil_append]
        · simp only []
          omega
        · simp only []
          rw [hdir, hdiv]
    · exact Or.inl ⟨rfl, rfl, rfl⟩

theorem update_keeps (ds : List Drive) (drive : Int) (f : Drive → Drive) (i : Nat) (d : Drive)
    (hf : ∀ x, (f x).steps = x.steps ∧ (f x).direction = x.direction) (hd : ds[i]? = some d) :
    ∃ d', (update ds drive f)[i]? = some d' ∧ d'.steps = d.steps ∧
      d'.direction = d.direction := by
  by_cases h : drive = (i : Int)
  · subst h
    rw [update_getElem?_self, hd]
    exact ⟨f d, rfl, (hf d).1, (hf d).2⟩
  · rw [update_getElem?_ne ds drive f i h, hd]
    exact ⟨d, rfl, rfl, rfl⟩

theorem command_keeps (ds : List Drive) (a : Action) (ha : a.isSweep = false) (i : Nat)
    (d : Drive) (hd : ds[i]? = some d) :
    (applyAction ds a).2 = [] ∧ ∃ d', (applyAction ds a).1[i]? = some d' ∧
      d'.steps = d.steps ∧ d'.direction = d.direction := by
  cases a with
  | sweep => simp [Action.isSweep] at ha
  | play drive f =>
    refine ⟨rfl, ?_⟩
    simp only [applyAction, play]
    split
    · exact update_keeps ds drive _ i d (fun x => ⟨rfl, rfl⟩) hd
    · exact update_keeps ds drive _ i d (fun x => ⟨rfl, rfl⟩) hd
  | stop drive =>
    exact ⟨rfl, update_keeps ds drive _ i d (fun x => ⟨rfl, rfl⟩) hd⟩

/-- The writes to a drive follow the pulse count: from a record that has made `p0`
pulses, any sequence of actions writes the train of the pulses that it makes. -/
theorem runActions_train (i : Nat) : ∀ (acts : List Action) (ds : List Drive) (d : Drive)
    (p0 : Nat), ds[i]? = some d → d.steps = ((p0 % 81 : Nat) : Int) →
    d.direction = decide (p0 / 81 % 2 = 0) →
    writesOf i (runActions ds acts).2 = pulseTrain i p0 (stepPulses i (runActions ds acts).2) ∧
      ∃ d', (runActions ds acts).1[i]? = some d' ∧
        d'.steps = (((p0 + stepPulses i (runActions ds acts).2) % 81 : Nat) : Int) ∧
        d'.direction = decide ((p0 + stepPulses i (runActions ds acts).2) / 81 % 2 = 0)
  | [], ds, d, p0, hd, hs, hdir => by
    simp only [runActions, writesOf, stepPulses, List.filter_nil, List.countP_nil, pulseTrain,
      Nat.add_zero, true_and]
    exact ⟨d, hd, hs, hdir⟩
  | a :: acts, ds, d, p0, hd, hs, hdir => by
    simp only [runActions, writesOf_append, stepPulses_append]
    cases hsw : a.isSweep with
    | false =>
      obtain ⟨h1, d1, h2, h3, h4⟩ := command_keeps ds a hsw i d hd
      obtain ⟨i1, i2⟩ := runActions_train i acts (applyAction ds a).1 d1 p0 h2
        (by rw [h3, hs]) (by rw [h4, hdir])
      rw [h1]
      simpa [writesOf, stepPulses] using And.intro i1 i2
    | true =>
      have ha : a = Action.sweep := by cases a <;> simp [Action.isSweep] at hsw ⊢
      subst ha
      simp only [applyAction]
      have hg : (loopIter ds).1[i]? = some (loopDrive i d).1 := by
        rw [loopIter_getElem?, hd]; rfl
      have hwr := writesOf_loopIter ds i d hd
      have hcount : stepPulses i (loopIter ds).2 = stepPulses i (loopDrive i d).2 := by
        rw [← stepPulses_writesOf, hwr]
      rw [hwr]
      simp only [hcount]
      rcases loopDrive_slot i d p0 hs hdir with ⟨e1, e2, e3⟩ | ⟨e1, e2, e3⟩
      · obtain ⟨i1, i2⟩ := runActions_train i acts (loopIter ds).1 (loopDrive i d).1 p0 hg
          (by rw [e2, hs]) (by rw [e3, hdir])
        rw [e1]
        simpa [stepPulses] using And.intro i1 i2
      · obtain ⟨i1, d', i2, i3, i4⟩ := runActions_train i acts (loopIter ds).1
          (loopDrive i d).1 (p0 + 1) hg e2 e3
        simp only [e1, stepPulses_pulseSlot]
        refine ⟨?_, d', i2, ?_, ?_⟩
        · rw [i1, pulseTrain_add i 1 _ p0]
          simp [pulseTrain]
        · rw [i3]
          congr 2
          omega
        · rw [i4]
          congr 3
          omega

theorem loopDrive_maxticks (j : Nat) (d : Drive) : (loopDrive j d).1.maxticks = d.maxticks := by
  simp only [loopDrive]
  split
  · rfl
  · split
    · split <;> rfl
    · rfl

theorem stepPulses_loopDrive_le (j : Nat) (d : Drive) : stepPulses j (loopDrive j d).2 ≤ 1 := by
  simp only [loopDrive]
  split
  · simp [stepPulses]
  · split
    · split <;> simp [stepPulses, pulse, List.countP_cons]
    · simp [stepPulses]

theorem stepPulses_loopIter (ds : List Drive) (i : Nat) :
    stepPulses i (loopIter ds).2 =
      match ds[i]? with
      | some d => stepPulses i (loopDrive i d).2
      | none => 0 := by
  rw [← stepPulses_writesOf]
  have h := writesOf_loopFrom ds 0 i
  rw [Nat.zero_add] at h
  rw [loopIter, h]
  split <;> simp [stepPulses]

theorem stepPulses_loopIter_le (ds : List Drive) (i : Nat) : stepPulses i (loopIter ds).2 ≤ 1 := by
  rw [stepPulses_loopIter]
  split
  · exact stepPulses_loopDrive_le i _
  · exact Nat.zero_le _

theorem playable_maxticks (f : ℚ) (hf : playable f) (hne : f ≠ 0) :
    0 < doubleToInt ((RESOLUTION : ℚ) / f) := by
  rcases hf with h | ⟨h0, h1, h2⟩
  · exact absurd h hne
  · have hq : (1 : ℚ) ≤ (RESOLUTION : ℚ) / f := by
      rw [le_div_iff₀ h0]; linarith
    have hfl : 1 ≤ ⌊(RESOLUTION : ℚ) / f⌋ := by
      rw [Int.le_floor]; exact_mod_cast hq
    rw [doubleToInt_of_range (by linarith) h2]
    omega

theorem applyAction_idle_or_pulsing (a : Action) (ha : a.playable) (ds : List Drive)
    (h : ∀ d ∈ ds, d.maxticks = -1 ∨ 0 < d.maxticks) :
    ∀ d ∈ (applyAction ds a).1, d.maxticks = -1 ∨ 0 < d.maxticks := by
  cases a with
  | sweep =>
    exact loopFrom_forall _ (fun j d hd => by rw [loopDrive_maxticks]; exact hd) ds 0 h
  | play drive f =>
    simp only [applyAction, play]
    split
    · exact update_forall _ ds drive _ (fun d _ => Or.inl rfl) h
    · rename_i hne
      exact update_forall _ ds drive _ (fun d _ => Or.inr (playable_maxticks f ha hne)) h
  | stop drive => exact update_forall _ ds drive _ (fun d _ => Or.inl rfl) h

theorem stepPulses_loopDrive_cadence (j : Nat) (d : Drive) (n : Nat) (h1 : 1 ≤ d.maxticks)
    (h2 : d.maxticks < 2147483648) (ht : d.ticks = (n : Int) % d.maxticks) :
    stepPulses j (loopDrive j d).2 = if d.maxticks ∣ ((n : Int) + 1) then 1 else 0 := by
  have hpos : (0 : Int) < d.maxticks := by omega
  have hlo : 0 ≤ d.ticks := by rw [ht]; exact Int.emod_nonneg _ (by omega)
  have hhi : d.ticks < d.maxticks := by rw [ht]; exact Int.emod_lt_of_pos _ hpos
  have hmod : ((n : Int) + 1) % d.maxticks = (d.ticks + 1) % d.maxticks := by
    rw [ht, Int.emod_add_emod]
  by_cases hdue : d.maxticks ≤ d.ticks + 1
  · have he : d.ticks + 1 = d.maxticks := by omega
    have hdvd : d.maxticks ∣ ((n : Int) + 1) := by
      apply Int.dvd_of_emod_eq_zero
      rw [hmod, he, Int.emod_self]
    rw [if_pos hdvd]
    exact (loopDrive_due j d hlo hdue (by omega) (by omega)).2.2
  · have hndvd : ¬ d.maxticks ∣ ((n : Int) + 1) := by
      intro hc
      have := Int.emod_eq_zero_of_dvd hc
      rw [hmod, Int.emod_eq_of_lt (by omega) (by omega)] at this
      omega
    rw [if_neg hndvd, loopDrive_wait j d hlo (by omega) h2]
    rfl

/-! ## Properties of `r_to_n` -/

theorem findCR_ge : ∀ (s : List Char) (it p : Nat), findCR s it = some p → it ≤ p
  | [], _, _, h => by simp [findCR] at h
  | c :: cs, 0, p, _ => Nat.zero_le p
  | _ :: cs, it + 1, p, h => by
    unfold findCR at h
    cases hq : findCR cs it with
    | none => simp [hq] at h
    | some q =>
      simp only [hq, Option.map_some', Option.some.injEq] at h
      have := findCR_ge cs it q hq
      omega

theorem findCR_min : ∀ (s : List Char) (it p : Nat), findCR s it = some p →
    ∀ k, it ≤ k → k < p → s[k]? ≠ some '\r'
  | [], _, _, h => by simp [findCR] at h
  | c :: cs, 0, p, h => by
    unfold findCR at h
    split at h
    · cases h
      intro k _ hk
      omega
    · rename_i hc
      cases hq : findCR cs 0 with
      | none => simp [hq] at h
      | some q =>
        simp only [hq, Option.map_some', Option.some.injEq] at h
        subst h
        intro k _ hk
        cases k with
        | zero => simpa using hc
        | succ k =>
          simp only [List.getElem?_cons_succ]
          exact findCR_min cs 0 q hq k (Nat.zero_le k) (by omega)
  | c :: cs, it + 1, p, h => by
    unfold findCR at h
    cases hq : findCR cs it with
    | none => simp [hq] at h
    | some q =>
      simp only [hq, Option.map_some', Option.some.injEq] at h
      subst h
      intro k hk1 hk2
      cases k with
      | zero => omega
      | succ k =>
        simp only [List.getElem?_cons_succ]
        exact findCR_min cs it q hq k (by omega) (by omega)

theorem findCR_none : ∀ (s : List Char) (it : Nat), findCR s it = none →
    ∀ k, it ≤ k → s[k]? ≠ some '\r'
  | [], _, _ => by simp
  | c :: cs, 0, h => by
    unfold findCR at h
    split at h
    · cases h
    · rename_i hc
      have hq : findCR cs 0 = none := by
        cases hq : findCR cs 0 with
        | none => rfl
        | some q => simp [hq] at h
      intro k _
      cases k with
      | zero => simpa using hc
      | succ k =>
        simp only [List.getElem?_cons_succ]
        exact findCR_none cs 0 hq k (Nat.zero_le k)
  | c :: cs, it + 1, h => by
    unfold findCR at h
    have hq : findCR cs it = none := by
      cases hq : findCR cs it with
      | none => rfl
      | some q => simp [hq] at h
    intro k hk
    cases k with
    | zero => omega
    | succ k =>
      simp only [List.getElem?_cons_succ]
      exact findCR_none cs it hq k (by omega)

theorem map_crToLf_of_ne (o : Option Char) (h : o ≠ some '\r') : o.map crToLf = o := by
  cases o with
  | none => rfl
  | some c =>
    have : c ≠ '\r' := fun hc => h (by rw [hc])
    simp [crToLf, this]

/-- The loop entered at position `it` normalises the positions from `it` on and leaves
the ones before `it` alone. -/
theorem r_to_n_loop_getElem? (s : List Char) (it : Nat) :
    ∀ k, (r_to_n_loop s it)[k]? = if k < it then s[k]? else (s[k]?).map crToLf := by
  induction s, it using r_to_n_loop.induct with
  | case1 s it h =>
    intro k
    rw [r_to_n_loop]
    split
    · split
      · rfl
      · rename_i hk
        exact (map_crToLf_of_ne _ (findCR_none s it h k (by omega))).symm
    · rename_i p hp
      rw [h] at hp
      cases hp
  | case2 s it p h ih =>
    intro k
    rw [r_to_n_loop]
    split
    · rename_i hn
      rw [h] at hn
      cases hn
    · rename_i q hq
      rw [h] at hq
      cases hq
      have hge := findCR_ge s it p h
      have hcr := findCR_spec s it p h
      rw [ih k]
      by_cases h1 : k < it
      · rw [if_pos (by omega), if_pos h1, List.getElem?_set_ne (show p ≠ k by omega)]
      · rw [if_neg h1]
        by_cases h2 : k < p
        · rw [if_pos h2, List.getElem?_set_ne (show p ≠ k by omega)]
          exact (map_crToLf_of_ne _ (findCR_min s it p h k (by omega) h2)).symm
        · rw [if_neg h2]
          by_cases h3 : k = p
          · subst h3
            have hlt : k < s.length := by
              by_contra hc
              rw [List.getElem?_eq_none (by omega)] at hcr
              cases hcr
            rw [List.getElem?_set_self hlt, hcr]
            rfl
          · rw [List.getElem?_set_ne (show p ≠ k by omega)]

theorem r_to_n_eq_map (s : List Char) : r_to_n s = s.map crToLf := by
  apply List.ext_getElem?
  intro k
  rw [r_to_n, r_to_n_loop_getElem? s 0 k, if_neg (Nat.not_lt_zero k), List.getElem?_map]

/-! ## The lock discipline of `play` and `stop` -/

theorem update_update (ds : List Drive) (drive : Int) (f g : Drive → Drive) :
    update (update ds drive f) drive g = update ds drive fun d => g (f d) := by
  unfold update
  split
  · rfl
  · cases hd : ds[drive.toNat]? with
    | none => simp [hd]
    | some d =>
      have hlt : drive.toNat < ds.length := by
        by_contra hc
        rw [List.getElem?_eq_none (by omega)] at hd
        cases hd
      simp [List.getElem?_set_self hlt, List.set_set]

/-- The operations of `stop` have the effect of `stop`. -/
theorem applyOps_stopOps (ds : List Drive) (drive : Int) :
    applyOps ds (stopOps drive) = stop ds drive := rfl

/-- The operations of `play` have the effect of `play`. -/
theorem applyOps_playOps (ds : List Drive) (drive : Int) (f : ℚ) :
    applyOps ds (playOps drive f) = play ds drive f := by
  unfold playOps play
  split
  · rfl
  · simp only [applyOps]
    rw [update_update]

/-! ## The drive indices handed to the registry -/

theorem handleEvent_drive_range (arguments : Arguments) (dcount : Nat) (st : PlayState)
    (hwf : WellFormed dcount st) (e : Event) :
    ∀ x ∈ (handleEvent arguments dcount st e).2, ∀ i, x.drive? = some i → 0 ≤ i ∧ i < dcount := by
  cases e with
  | noteOff muted channel =>
    cases muted
    · cases hm : mapFind st.channel_map channel with
      | none =>
        rw [handleEvent_noteOff_unmapped arguments dcount st false channel hm]
        simp
      | some v =>
        rw [handleEvent_noteOff_mapped arguments dcount st channel v hm]
        intro x hx i hi
        simp only [List.mem_singleton] at hx
        subst hx
        simp only [Effect.drive?, Option.some.injEq] at hi
        subst hi
        exact ⟨(hwf.range channel v hm).1, (hwf.range channel v hm).2.1⟩
    · simp [handleEvent]
  | noteOn muted channel note =>
    cases muted
    · cases hm : mapFind st.channel_map channel with
      | none =>
        rw [handleEvent_noteOn_unmapped arguments dcount st channel note hm]
        rcases freeDrive_cases st.pool_free dcount with ⟨h1, _⟩ | ⟨k, hk, h1, _, _⟩
        · rw [h1]; simp
        · rw [h1, if_pos (by omega)]
          intro x hx i hi
          simp only [List.mem_singleton] at hx
          subst hx
          simp only [Effect.drive?, Option.some.injEq] at hi
          subst hi
          constructor <;> omega
      | some v =>
        rw [handleEvent_noteOn_mapped arguments dcount st hwf channel v note hm]
        intro x hx i hi
        simp only [List.mem_singleton] at hx
        subst hx
        simp only [Effect.drive?, Option.some.injEq] at hi
        subst hi
        exact ⟨(hwf.range channel v hm).1, (hwf.range channel v hm).2.1⟩
    · simp [handleEvent]
  | lyrics text =>
    simp only [handleEvent]
    split
    · intro x hx i hi
      simp only [List.mem_singleton] at hx
      subst hx
      simp [Effect.drive?] at hi
    · simp
  | other => simp [handleEvent]

theorem playLoop_drive_range (arguments : Arguments) (dcount : Nat) :
    ∀ (events : List Event) (st : PlayState), WellFormed dcount st →
      ∀ x ∈ (playLoop arguments dcount st events).2, ∀ i, x.drive? = some i →
        0 ≤ i ∧ i < dcount
  | [], _, _ => by simp [playLoop]
  | e :: es, st, hwf => by
    rw [playLoop_cons]
    intro x hx
    rcases List.mem_append.mp hx with h | h
    · exact handleEvent_drive_range arguments dcount st hwf e x h
    · exact playLoop_drive_range arguments dcount es _
        (handleEvent_wellFormed arguments dcount st hwf e) x h


theorem loopFrom_length : ∀ (ds : List Drive) (j : Nat), (loopFrom j ds).1.length = ds.length
  | [], _ => rfl
  | d :: ds, j => by simp [loopFrom, loopFrom_length ds (j + 1)]

theorem applyAction_length (ds : List Drive) (a : Action) :
    (applyAction ds a).1.length = ds.length := by
  cases a with
  | sweep => exact loopFrom_length ds 0
  | play drive f =>
    simp only [applyAction, play]
    split <;> exact update_length ds drive _
  | stop drive => exact update_length ds drive _

theorem runActions_length : ∀ (acts : List Action) (ds : List Drive),
    (runActions ds acts).1.length = ds.length
  | [], _ => rfl
  | a :: acts, ds => by
    simp only [runActions]
    rw [runActions_length acts, applyAction_length]

/-! ## Every marked drive is mapped -/

theorem covered_empty : Covered PlayState.empty := by
  intro i h
  simp [PlayState.empty] at h

theorem covered_release (dcount : Nat) (st : PlayState) (hwf : WellFormed dcount st)
    (hcov : Covered st) (channel v : Int) (hmapped : mapFind st.channel_map channel = some v) :
    Covered { channel_map := mapErase st.channel_map channel,
              pool_free := st.pool_free ^^^ shl1 v } := by
  have hr := hwf.range channel v hmapped
  obtain ⟨n, rfl⟩ := Int.eq_ofNat_of_zero_le hr.1
  intro i hi
  simp only at hi ⊢
  have hn : n < 32 := by omega
  have hold : st.pool_free.testBit i = true ∧ ((i : Int) ≠ (n : Int)) := by
    rw [testBit_xor_shl1 _ n i hn] at hi
    by_cases he : n = i
    · subst he
      have := hwf.marked channel _ hmapped
      rw [Int.toNat_natCast] at this
      simp [this] at hi
    · have : decide (n = i) = false := by simpa using he
      rw [this, Bool.xor_false] at hi
      exact ⟨hi, by omega⟩
  obtain ⟨c, hc⟩ := hcov i hold.1
  refine ⟨c, ?_⟩
  have hne : c ≠ channel := by
    intro he
    subst he
    rw [hmapped] at hc
    exact hold.2 (Option.some.inj hc).symm
  rw [mapFind_mapErase_ne _ _ _ hne, hc]

theorem covered_allocate (st : PlayState) (hcov : Covered st) (channel : Int) (k : Nat)
    (hn : k < 32) (hunmapped : mapFind st.channel_map channel = none) :
    Covered { channel_map := mapAssign st.channel_map channel (k : Int),
              pool_free := st.pool_free ||| shl1 (k : Int) } := by
  intro i hi
  simp only at hi ⊢
  simp only [mapFind_mapAssign]
  have hcase : st.pool_free.testBit i = true ∨ k = i := by
    rw [testBit_or_shl1 _ k i hn] at hi
    rcases Bool.or_eq_true _ _ ▸ hi with h | h
    · exact Or.inl h
    · exact Or.inr (by simpa using h)
  rcases hcase with h | h
  · obtain ⟨c, hc⟩ := hcov i h
    refine ⟨c, ?_⟩
    have hne : c ≠ channel := by
      intro he
      subst he
      rw [hunmapped] at hc
      cases hc
    rw [if_neg hne, hc]
  · exact ⟨channel, by rw [if_pos rfl, h]⟩

theorem handleEvent_covered (arguments : Arguments) (dcount : Nat) (st : PlayState)
    (hwf : WellFormed dcount st) (hcov : Covered st) (e : Event) :
    Covered (handleEvent arguments dcount st e).1 := by
  cases e with
  | noteOff muted channel =>
    cases muted
    · cases hm : mapFind st.channel_map channel with
      | none =>
        rw [handleEvent_noteOff_unmapped arguments dcount st false channel hm]; exact hcov
      | some v =>
        rw [handleEvent_noteOff_mapped arguments dcount st channel v hm]
        exact covered_release dcount st hwf hcov channel v hm
    · simpa [handleEvent] using hcov
  | noteOn muted channel note =>
    cases muted
    · cases hm : mapFind st.channel_map channel with
      | none =>
        rw [handleEvent_noteOn_unmapped arguments dcount st channel note hm]
        rcases freeDrive_found st.pool_free dcount with ⟨h1, _⟩ | ⟨k, _, hk32, h1, _, _⟩
        · rw [h1]; simpa using hcov
        · rw [h1, if_pos (by omega)]
          exact covered_allocate st hcov channel k hk32 hm
      | some v =>
        rw [handleEvent_noteOn_mapped arguments dcount st hwf channel v note hm]
        exact hcov
    · simpa [handleEvent] using hcov
  | lyrics text =>
    simp only [handleEvent]
    split <;> exact hcov
  | other => exact hcov

theorem playLoop_covered (arguments : Arguments) (dcount : Nat) :
    ∀ (events : List Event) (st : PlayState), WellFormed dcount st → Covered st →
      Covered (playLoop arguments dcount st events).1
  | [], _, _, h => h
  | e :: es, st, hwf, h => by
    rw [playLoop_cons]
    exact playLoop_covered arguments dcount es _
      (handleEvent_wellFormed arguments dcount st hwf e)
      (handleEvent_covered arguments dcount st hwf h e)

theorem covered_of_reachable (arguments : Arguments) (dcount : Nat) (st : PlayState)
    (h : Reachable arguments dcount st) : Covered st := by
  obtain ⟨events, rfl⟩ := h
  exact playLoop_covered arguments dcount events _ (wellFormed_empty dcount) covered_empty

theorem mapFind_of_mem : ∀ (m : List (Int × Int)) (c v : Int), keysAscending m →
    (c, v) ∈ m → mapFind m c = some v
  | [], _, _, _, h => by simp at h
  | (k, w) :: rest, c, v, ha, h => by
    have hp := List.pairwise_cons.mp ha
    unfold mapFind
    rcases List.mem_cons.mp h with h1 | h1
    · cases h1
      rw [if_pos rfl]
    · have hlt := hp.1 (c, v) h1
      simp only at hlt
      rw [if_neg (by omega)]
      exact mapFind_of_mem rest c v hp.2 h1

/-- The marked drives are as many as the mapped channels. -/
theorem occupied_eq_length (dcount : Nat) (st : PlayState)
    (hwf : WellFormed dcount st) (hcov : Covered st) :
    occupied st.pool_free dcount = st.channel_map.length := by
  have hnd : st.channel_map.Nodup := by
    refine List.Pairwise.imp ?_ hwf.ascending
    intro a b hab he
    rw [he] at hab
    exact lt_irrefl _ hab
  have hvals : (st.channel_map.map fun e => e.2.toNat).Nodup := by
    refine List.Nodup.map_on ?_ hnd
    intro x hx y hy hxy
    have fx := mapFind_of_mem _ x.1 x.2 hwf.ascending hx
    have fy := mapFind_of_mem _ y.1 y.2 hwf.ascending hy
    have rx := hwf.range _ _ fx
    have ry := hwf.range _ _ fy
    have hv : x.2 = y.2 := by
      simp only at hxy
      omega
    have hc : x.1 = y.1 := hwf.unique x.1 y.1 x.2 fx (hv ▸ fy)
    exact Prod.ext hc hv
  have hfil : ((List.range dcount).filter fun i => st.pool_free.testBit i).Nodup :=
    List.Nodup.filter _ (List.nodup_range dcount)
  have hperm : ((List.range dcount).filter fun i => st.pool_free.testBit i).Perm
      (st.channel_map.map fun e => e.2.toNat) := by
    rw [List.perm_ext_iff_of_nodup hfil hvals]
    intro i
    simp only [List.mem_filter, List.mem_range, List.mem_map]
    constructor
    · rintro ⟨_, hbit⟩
      obtain ⟨c, hc⟩ := hcov i hbit
      exact ⟨(c, (i : Int)), mapFind_mem _ _ _ hc, by simp⟩
    · rintro ⟨e, he, rfl⟩
      have fe := mapFind_of_mem _ e.1 e.2 hwf.ascending he
      have re := hwf.range _ _ fe
      exact ⟨by omega, hwf.marked _ _ fe⟩
  rw [occupied, List.countP_eq_length_filter, hperm.length_eq, List.length_map]

set_option maxRecDepth 100000 in
/-- With 33 drives, Note-On events on the channels 0 .. 33 take the drives 0 .. 31: the
channels 32 and 33 get no drive, and `pool_free` has its 32 bits set. -/
theorem playLoop_33_drives :
    (playLoop ⟨1, false⟩ 33 PlayState.empty (notesOn 34)).1.pool_free = 4294967295 ∧
      mapFind (playLoop ⟨1, false⟩ 33 PlayState.empty (notesOn 34)).1.channel_map 31
        = some 31 ∧
      mapFind (playLoop ⟨1, false⟩ 33 PlayState.empty (notesOn 34)).1.channel_map 32 = none ∧
      mapFind (playLoop ⟨1, false⟩ 33 PlayState.empty (notesOn 34)).1.channel_map 33 = none ∧
      (playLoop ⟨1, false⟩ 33 PlayState.empty (notesOn 34)).1.channel_map.length = 32 := by
  decide

/-! ## The claims -/

/-- C2 (amended): let `play` on a valid index with a frequency > 0 have set
`maxticks = m` with `m ≥ 1`. Over any following sequence of sweeps and of commands to
other drives, no step pulse is made on that drive while fewer than `m` sweeps have run,
and exactly one has been made when `m` sweeps have run, whatever the drive held before
`play`. -/
theorem first_pulse_after_play (ds : List Drive) (i : Nat) (frequency : ℚ) (d : Drive)
    (hf : 0 < frequency) (hd : (play ds (i : Int) frequency)[i]? = some d)
    (hm : 1 ≤ d.maxticks) (acts : List Action)
    (hacts : ∀ a ∈ acts, a.commands (i : Int) = false) :
    ((sweepCount acts : Int) < d.maxticks →
        stepPulses i (runActions (play ds (i : Int) frequency) acts).2 = 0) ∧
      ((sweepCount acts : Int) = d.maxticks →
        stepPulses i (runActions (play ds (i : Int) frequency) acts).2 = 1) := by
  have hp := play_getElem?_self ds i frequency hf.ne'
  rw [hd] at hp
  have ht : d.ticks = 0 ∧ d.maxticks < 2147483648 := by
    cases h0 : ds[i]? with
    | none => simp [h0] at hp
    | some d0 =>
      simp only [h0, Option.map_some', Option.some.injEq] at hp
      subst hp
      exact ⟨rfl, doubleToInt_lt _⟩
  obtain ⟨_, hw⟩ := runActions_project i acts _ d hd hacts
  obtain ⟨_, _, hc⟩ := sweepsDrive_cadence i (sweepCount acts) d hm ht.2 (by omega) (by omega)
  rw [← hw, stepPulses_writesOf, ht.1, Int.zero_add] at hc
  constructor
  · intro hlt
    rw [Int.ediv_eq_zero_of_lt (by omega) hlt] at hc
    exact_mod_cast hc
  · intro heq
    rw [heq, Int.ediv_self (by omega)] at hc
    exact_mod_cast hc

/-- C2, an instance: after `play` at 1800 Hz (`maxticks = 4`) three sweeps make no
pulse and the fourth makes the first one. -/
theorem first_pulse_after_play_witness :
    (0 : ℚ) < 1800 ∧
      (play (create [⟨17, 18⟩]) ((0 : Nat) : Int) 1800)[0]? = some ⟨0, 0, 17, 18, 0, 4, 0, true⟩ ∧
      stepPulses 0 (runActions (play (create [⟨17, 18⟩]) ((0 : Nat) : Int) 1800)
        [Action.sweep, Action.sweep, Action.sweep]).2 = 0 ∧
      stepPulses 0 (runActions (play (create [⟨17, 18⟩]) ((0 : Nat) : Int) 1800)
        [Action.sweep, Action.sweep, Action.sweep, Action.sweep]).2 = 1 :=
  have hq : doubleToInt ((RESOLUTION : ℚ) / 1800) = 4 :=
    doubleToInt_of_floor (by norm_num [RESOLUTION])
      (by rw [show (RESOLUTION : ℚ) / 1800 = ((4 : Int) : ℚ) by norm_num [RESOLUTION],
        Int.floor_intCast]) (by decide)
  have hf : (0 : ℚ) < 1800 := by norm_num
  have hd : (play (create [⟨17, 18⟩]) ((0 : Nat) : Int) 1800)[0]? =
      some ⟨0, 0, 17, 18, 0, 4, 0, true⟩ := by
    rw [Nat.cast_zero, play_single 17 18 1800 (by norm_num), hq]
    rfl
  ⟨hf, hd,
    (first_pulse_after_play _ 0 1800 _ hf hd (by decide)
      [Action.sweep, Action.sweep, Action.sweep] (by decide)).1 (by decide),
    (first_pulse_after_play _ 0 1800 _ hf hd (by decide)
      [Action.sweep, Action.sweep, Action.sweep, Action.sweep] (by decide)).2 (by decide)⟩

/-- C2 as stated fails: at the frequency 7201 (> 0) `play` sets `maxticks = m = 0`; no
pulse has been made by sweep `m` (no sweep has run), the first pulse comes with sweep 1. -/
theorem first_pulse_late_when_maxticks_zero :
    (0 : ℚ) < 7201 ∧
      ((play (create [⟨17, 18⟩]) 0 7201)[0]?).map Drive.maxticks = some 0 ∧
      stepPulses 0 (runActions (play (create [⟨17, 18⟩]) 0 7201) []).2 = 0 ∧
      stepPulses 0 (runActions (play (create [⟨17, 18⟩]) 0 7201) [Action.sweep]).2 = 1 := by
  have hq : doubleToInt ((RESOLUTION : ℚ) / 7201) = 0 :=
    doubleToInt_of_floor (by norm_num [RESOLUTION])
      (by rw [Int.floor_eq_iff]; norm_num [RESOLUTION]) (by decide)
  rw [play_single 17 18 7201 (by norm_num), hq]
  exact ⟨by norm_num, by decide, by decide, by decide⟩

/-- C3: for every state and valid index, after `stop` the drive has `maxticks = -1`,
and over any following sequence of sweeps, of `stop`s and of commands to other drives
(no `play` on that index) its record stays the one `stop` left and no write at all,
step or direction, goes to that drive. -/
theorem silent_after_stop (ds : List Drive) (i : Nat) (hi : i < ds.length)
    (acts : List Action) (hacts : ∀ a ∈ acts, a.plays (i : Int) = false) :
    ∃ d : Drive, (stop ds (i : Int))[i]? = some d ∧ d.maxticks = -1 ∧
      (runActions (stop ds (i : Int)) acts).1[i]? = some d ∧
      writesOf i (runActions (stop ds (i : Int)) acts).2 = [] := by
  have hs := stop_getElem?_self ds i
  rw [List.getElem?_eq_getElem hi, Option.map_some'] at hs
  obtain ⟨h1, h2⟩ := runActions_idle i acts _ _ hs rfl hacts
  exact ⟨_, hs, rfl, h1, h2⟩

/-- C3, an instance: two drives, the second one stopped while it was playing. -/
theorem silent_after_stop_witness :
    (1 : Nat) < [(⟨0, 0, 17, 18, 2, 5, 7, true⟩ : Drive), ⟨0, 0, 22, 23, 3, 4, 80, false⟩].length ∧
      (∀ a ∈ [Action.sweep, Action.play 0 440, Action.sweep, Action.stop 1, Action.sweep],
        a.plays ((1 : Nat) : Int) = false) ∧
      ∃ d : Drive,
        (stop [⟨0, 0, 17, 18, 2, 5, 7, true⟩, ⟨0, 0, 22, 23, 3, 4, 80, false⟩]
          ((1 : Nat) : Int))[1]? = some d ∧ d.maxticks = -1 ∧
        (runActions (stop [⟨0, 0, 17, 18, 2, 5, 7, true⟩, ⟨0, 0, 22, 23, 3, 4, 80, false⟩]
          ((1 : Nat) : Int))
          [Action.sweep, Action.play 0 440, Action.sweep, Action.stop 1, Action.sweep]).1[1]? =
            some d ∧
        writesOf 1 (runActions
          (stop [⟨0, 0, 17, 18, 2, 5, 7, true⟩, ⟨0, 0, 22, 23, 3, 4, 80, false⟩]
            ((1 : Nat) : Int))
          [Action.sweep, Action.play 0 440, Action.sweep, Action.stop 1, Action.sweep]).2 = [] :=
  have h1 : (1 : Nat) <
      [(⟨0, 0, 17, 18, 2, 5, 7, true⟩ : Drive), ⟨0, 0, 22, 23, 3, 4, 80, false⟩].length := by
    decide
  have h2 : ∀ a ∈ [Action.sweep, Action.play 0 440, Action.sweep, Action.stop 1, Action.sweep],
      a.plays ((1 : Nat) : Int) = false := by
    simp [Action.plays]
  ⟨h1, h2, silent_after_stop _ 1 h1 _ h2⟩

/-- C4 (amended): in every state in which the channel has no mapping and `i < dcount` is
the lowest drive whose bit in `pool_free` is clear, and `i < 32`, an unmuted Note-On issues
exactly `play(i, frequencies[note mod 12] / drop_factor)`, sets bit `i`, leaves every other
bit as it was, maps the channel to `i` and leaves every other channel's mapping as it
was. -/
theorem noteOn_allocates_lowest_free (arguments : Arguments) (dcount : Nat) (st : PlayState)
    (channel : Int) (note : Nat) (i : Nat)
    (hunmapped : mapFind st.channel_map channel = none) (hi : i < dcount) (h32 : i < 32)
    (hfree : st.pool_free.testBit i = false)
    (hlowest : ∀ j < i, st.pool_free.testBit j = true) :
    (handleEvent arguments dcount st (Event.noteOn false channel note)).2 =
        [Effect.play (i : Int) (frequencies.getD (note % 12) 0 / arguments.drop_factor)] ∧
      (handleEvent arguments dcount st (Event.noteOn false channel note)).1.pool_free.testBit i
        = true ∧
      (∀ j, j ≠ i →
        (handleEvent arguments dcount st (Event.noteOn false channel note)).1.pool_free.testBit j
          = st.pool_free.testBit j) ∧
      mapFind (handleEvent arguments dcount st (Event.noteOn false channel note)).1.channel_map
        channel = some (i : Int) ∧
      ∀ c, c ≠ channel →
        mapFind (handleEvent arguments dcount st (Event.noteOn false channel note)).1.channel_map c
          = mapFind st.channel_map c := by
  have hfd := freeDrive_eq_first st.pool_free dcount i hi h32 hfree hlowest
  have hne : ((i : Int) ≠ -1) := by omega
  have hstep : handleEvent arguments dcount st (Event.noteOn false channel note) =
      ({ channel_map := mapAssign st.channel_map channel (i : Int),
         pool_free := st.pool_free ||| shl1 (i : Int) },
        [Effect.play (i : Int) (pitch arguments note)]) := by
    simp only [handleEvent, hunmapped, hfd, Bool.false_eq_true, if_false]
    rw [if_pos hne]
  rw [hstep]
  refine ⟨rfl, ?_, ?_, ?_, ?_⟩
  · simp [testBit_or_shl1 _ i i h32]
  · intro j hj
    simp only [testBit_or_shl1 _ i j h32]
    have : decide (i = j) = false := by simpa using fun h => hj h.symm
    rw [this, Bool.or_false]
  · simp only [mapFind_mapAssign, if_true]
  · intro c hc
    simp only [mapFind_mapAssign]
    rw [if_neg hc]

/-- C4, an instance: two drives, drive 0 taken by channel 1, Note-On on channel 2. -/
theorem noteOn_allocates_lowest_free_witness :
    mapFind (⟨[(1, 0)], 1⟩ : PlayState).channel_map 2 = none ∧ (1 : Nat) < 2 ∧ (1 : Nat) < 32 ∧
      (⟨[(1, 0)], 1⟩ : PlayState).pool_free.testBit 1 = false ∧
      (∀ j < 1, (⟨[(1, 0)], 1⟩ : PlayState).pool_free.testBit j = true) ∧
      (handleEvent ⟨2, false⟩ 2 ⟨[(1, 0)], 1⟩ (Event.noteOn false 2 64)).2 =
        [Effect.play ((1 : Nat) : Int)
          (frequencies.getD (64 % 12) 0 / (⟨2, false⟩ : Arguments).drop_factor)] :=
  have h2 : mapFind (⟨[(1, 0)], 1⟩ : PlayState).channel_map 2 = none := by decide
  have h3 : (1 : Nat) < 2 := by decide
  have h32 : (1 : Nat) < 32 := by decide
  have h4 : (⟨[(1, 0)], 1⟩ : PlayState).pool_free.testBit 1 = false := by decide
  have h5 : ∀ j < 1, (⟨[(1, 0)], 1⟩ : PlayState).pool_free.testBit j = true := by decide
  ⟨h2, h3, h32, h4, h5,
    (noteOn_allocates_lowest_free ⟨2, false⟩ 2 ⟨[(1, 0)], 1⟩ 2 64 1 h2 h3 h32 h4 h5).1⟩

set_option maxRecDepth 100000 in
/-- C4 as stated fails with 33 drives: after Note-On events on the channels 0 .. 31 the
drives 0 .. 31 are marked, channel 32 has no mapping and drive 32 is the lowest unoccupied
one (its bit is clear and no channel maps to it); yet a Note-On on channel 32 issues
nothing and changes nothing, because the search tests bit 0 for drive 32. -/
theorem noteOn_dropped_with_drive_32_free :
    mapFind (playLoop ⟨1, false⟩ 33 PlayState.empty (notesOn 32)).1.channel_map 32 = none ∧
      (playLoop ⟨1, false⟩ 33 PlayState.empty (notesOn 32)).1.pool_free.testBit 32 = false ∧
      (32 : Int) ∉
        (playLoop ⟨1, false⟩ 33 PlayState.empty (notesOn 32)).1.channel_map.map Prod.snd ∧
      (∀ j < 32,
        (playLoop ⟨1, false⟩ 33 PlayState.empty (notesOn 32)).1.pool_free.testBit j = true) ∧
      (handleEvent ⟨1, false⟩ 33 (playLoop ⟨1, false⟩ 33 PlayState.empty (notesOn 32)).1
        (Event.noteOn false 32 60)).2 = [] ∧
      mapFind (handleEvent ⟨1, false⟩ 33
        (playLoop ⟨1, false⟩ 33 PlayState.empty (notesOn 32)).1
        (Event.noteOn false 32 60)).1.channel_map 32 = none ∧
      (handleEvent ⟨1, false⟩ 33 (playLoop ⟨1, false⟩ 33 PlayState.empty (notesOn 32)).1
        (Event.noteOn false 32 60)).1.pool_free.testBit 32 = false := by
  decide

/-- C5: with `dcount` drives, after `dcount` unmuted Note-On events on distinct channels
from the empty state, the first `min dcount 32` of these channels hold the drives
`0, 1, ...` in this order, and a further unmuted Note-On on another channel changes nothing
and issues nothing. -/
theorem noteOn_dropped_when_pool_full (arguments : Arguments) (dcount : Nat)
    (ons : List (Int × Nat)) (channel : Int) (note : Nat)
    (hlen : ons.length = dcount) (hdistinct : (ons.map Prod.fst).Nodup)
    (hother : channel ∉ ons.map Prod.fst) :
    (∀ (j : Nat) (e : Int × Nat), ons[j]? = some e → j < min dcount 32 →
        mapFind (playLoop arguments dcount PlayState.empty
          (ons.map fun e => Event.noteOn false e.1 e.2)).1.channel_map e.1 = some (j : Int)) ∧
      handleEvent arguments dcount
          (playLoop arguments dcount PlayState.empty
            (ons.map fun e => Event.noteOn false e.1 e.2)).1
          (Event.noteOn false channel note) =
        ((playLoop arguments dcount PlayState.empty
            (ons.map fun e => Event.noteOn false e.1 e.2)).1, []) := by
  obtain ⟨h1, h2, h3⟩ := playLoop_fill arguments dcount ons PlayState.empty 0 rfl
    (by omega) hdistinct (fun _ _ => rfl)
  constructor
  · intro j e hj hlt
    have := h3 j e hj (by omega)
    rw [this, Nat.zero_add]
  · have hun := h2 channel hother
    have hempty : mapFind PlayState.empty.channel_map channel = none := rfl
    rw [hempty] at hun
    apply handleEvent_noteOn_full arguments dcount _ channel note _ hun
    rw [h1, Nat.zero_add, hlen]
    congr 2
    omega

/-- C5, an instance: two drives, channels 1 and 2 sounding, Note-On on channel 3. -/
theorem noteOn_dropped_when_pool_full_witness :
    [((1 : Int), 60), ((2 : Int), 64)].length = 2 ∧
      ([((1 : Int), 60), ((2 : Int), 64)].map Prod.fst).Nodup ∧
      (3 : Int) ∉ [((1 : Int), 60), ((2 : Int), 64)].map Prod.fst ∧
      handleEvent ⟨2, false⟩ 2
          (playLoop ⟨2, false⟩ 2 PlayState.empty
            ([((1 : Int), 60), ((2 : Int), 64)].map fun e => Event.noteOn false e.1 e.2)).1
          (Event.noteOn false 3 67) =
        ((playLoop ⟨2, false⟩ 2 PlayState.empty
            ([((1 : Int), 60), ((2 : Int), 64)].map fun e => Event.noteOn false e.1 e.2)).1,
          []) :=
  have h2 : [((1 : Int), 60), ((2 : Int), 64)].length = 2 := rfl
  have h3 : ([((1 : Int), 60), ((2 : Int), 64)].map Prod.fst).Nodup := by decide
  have h4 : (3 : Int) ∉ [((1 : Int), 60), ((2 : Int), 64)].map Prod.fst := by decide
  ⟨h2, h3, h4,
    (noteOn_dropped_when_pool_full ⟨2, false⟩ 2 [(1, 60), (2, 64)] 3 67 h2 h3 h4).2⟩

/-- C8: in every state, a Note-Off (muted or not) on a channel without a mapping leaves
`channel_map` and `pool_free` as they were and issues neither `stop` nor `play`. -/
theorem noteOff_unmapped_is_noop (arguments : Arguments) (dcount : Nat) (st : PlayState)
    (muted : Bool) (channel : Int) (hunmapped : mapFind st.channel_map channel = none) :
    handleEvent arguments dcount st (Event.noteOff muted channel) = (st, []) := by
  cases muted <;> simp [handleEvent, hunmapped]

/-- C8, an instance: Note-Off on channel 3 while only channel 2 holds a drive. -/
theorem noteOff_unmapped_is_noop_witness :
    mapFind (⟨[(2, 1)], 2⟩ : PlayState).channel_map 3 = none ∧
      handleEvent ⟨2, false⟩ 2 ⟨[(2, 1)], 2⟩ (Event.noteOff false 3) = (⟨[(2, 1)], 2⟩, []) :=
  have h : mapFind (⟨[(2, 1)], 2⟩ : PlayState).channel_map 3 = none := by decide
  ⟨h, noteOff_unmapped_is_noop ⟨2, false⟩ 2 ⟨[(2, 1)], 2⟩ false 3 h⟩

/-- C9: the frequency for the note `n + 12k` is the one for `n`, namely
`frequencies[n mod 12] / drop_factor`, so a Note-On for either note is handled alike; the
notes 0, 12 and 24 all yield `261.626 / drop_factor`. -/
theorem pitch_depends_on_pitch_class (arguments : Arguments) (dcount : Nat) (st : PlayState)
    (muted : Bool) (channel : Int) (n k : Nat) :
    pitch arguments (n + 12 * k) = pitch arguments n ∧
      pitch arguments n = frequencies.getD (n % 12) 0 / arguments.drop_factor ∧
      handleEvent arguments dcount st (Event.noteOn muted channel (n + 12 * k)) =
        handleEvent arguments dcount st (Event.noteOn muted channel n) ∧
      pitch arguments 0 = 261.626 / arguments.drop_factor ∧
      pitch arguments 12 = 261.626 / arguments.drop_factor ∧
      pitch arguments 24 = 261.626 / arguments.drop_factor := by
  have h : pitch arguments (n + 12 * k) = pitch arguments n := by
    simp [pitch, Nat.add_mul_mod_self_left]
  refine ⟨h, rfl, ?_, rfl, rfl, rfl⟩
  simp only [handleEvent, h]

/-- C10: two drives and the events Note-On(1, 60), Note-On(2, 64), Note-On(3, 67),
Note-Off(1) from the empty state: drive 0 goes to channel 1, drive 1 to channel 2, the
Note-On on channel 3 is dropped, the Note-Off frees drive 0; the commands are exactly
`play(0, frequencies[0] / drop_factor)`, `play(1, frequencies[4] / drop_factor)`,
`stop(0)`, and at the end only channel 2 is mapped (to 1) and only drive 1 is marked. -/
theorem end_to_end_two_drives (arguments : Arguments) :
    playLoop arguments 2 PlayState.empty [Event.noteOn false 1 60] =
        (⟨[(1, 0)], 1⟩, [Effect.play 0 (261.626 / arguments.drop_factor)]) ∧
      playLoop arguments 2 ⟨[(1, 0)], 1⟩ [Event.noteOn false 2 64] =
        (⟨[(1, 0), (2, 1)], 3⟩, [Effect.play 1 (329.628 / arguments.drop_factor)]) ∧
      playLoop arguments 2 ⟨[(1, 0), (2, 1)], 3⟩ [Event.noteOn false 3 67] =
        (⟨[(1, 0), (2, 1)], 3⟩, []) ∧
      playLoop arguments 2 ⟨[(1, 0), (2, 1)], 3⟩ [Event.noteOff false 1] =
        (⟨[(2, 1)], 2⟩, [Effect.stop 0]) ∧
      playLoop arguments 2 PlayState.empty
          [Event.noteOn false 1 60, Event.noteOn false 2 64, Event.noteOn false 3 67,
            Event.noteOff false 1] =
        (⟨[(2, 1)], 2⟩,
          [Effect.play 0 (frequencies.getD 0 0 / arguments.drop_factor),
            Effect.play 1 (frequencies.getD 4 0 / arguments.drop_factor), Effect.stop 0]) ∧
      frequencies.getD 0 0 = 261.626 ∧ frequencies.getD 4 0 = 329.628 := by
  refine ⟨rfl, rfl, rfl, rfl, ?_, rfl, rfl⟩
  have e1 : handleEvent arguments 2 PlayState.empty (Event.noteOn false 1 60) =
      (⟨[(1, 0)], 1⟩, [Effect.play 0 (frequencies.getD 0 0 / arguments.drop_factor)]) := rfl
  have e2 : handleEvent arguments 2 ⟨[(1, 0)], 1⟩ (Event.noteOn false 2 64) =
      (⟨[(1, 0), (2, 1)], 3⟩, [Effect.play 1 (frequencies.getD 4 0 / arguments.drop_factor)]) :=
    rfl
  have e3 : handleEvent arguments 2 ⟨[(1, 0), (2, 1)], 3⟩ (Event.noteOn false 3 67) =
      (⟨[(1, 0), (2, 1)], 3⟩, []) := rfl
  have e4 : handleEvent arguments 2 ⟨[(1, 0), (2, 1)], 3⟩ (Event.noteOff false 1) =
      (⟨[(2, 1)], 2⟩, [Effect.stop 0]) := rfl
  simp only [playLoop, e1, e2, e3, e4, List.append_nil, List.nil_append, List.cons_append]

/-- C6: in every state reachable from the empty state, an unmuted Note-On on a channel
mapped to drive `i` issues exactly `play(i, frequencies[note mod 12] / drop_factor)` and
leaves the state (`channel_map` and `pool_free`) as it was. -/
theorem noteOn_mapped_reuses_drive (arguments : Arguments) (dcount : Nat) (st : PlayState)
    (channel i : Int) (note : Nat) (hreach : Reachable arguments dcount st)
    (hmapped : mapFind st.channel_map channel = some i) :
    handleEvent arguments dcount st (Event.noteOn false channel note) =
      (st, [Effect.play i (frequencies.getD (note % 12) 0 / arguments.drop_factor)]) :=
  handleEvent_noteOn_mapped arguments dcount st
    (wellFormed_of_reachable arguments dcount st hreach) channel i note hmapped

/-- C6, an instance: channel 1 holds drive 0 and gets a second Note-On. -/
theorem noteOn_mapped_reuses_drive_witness :
    Reachable ⟨2, false⟩ 2 ⟨[(1, 0)], 1⟩ ∧
      mapFind (⟨[(1, 0)], 1⟩ : PlayState).channel_map 1 = some 0 ∧
      handleEvent ⟨2, false⟩ 2 ⟨[(1, 0)], 1⟩ (Event.noteOn false 1 62) =
        (⟨[(1, 0)], 1⟩,
          [Effect.play 0 (frequencies.getD (62 % 12) 0 / (⟨2, false⟩ : Arguments).drop_factor)]) :=
  have h1 : Reachable ⟨2, false⟩ 2 ⟨[(1, 0)], 1⟩ := ⟨[Event.noteOn false 1 60], by decide⟩
  have h2 : mapFind (⟨[(1, 0)], 1⟩ : PlayState).channel_map 1 = some 0 := by decide
  ⟨h1, h2, noteOn_mapped_reuses_drive ⟨2, false⟩ 2 ⟨[(1, 0)], 1⟩ 1 0 62 h1 h2⟩

/-- C7: in every state reachable from the empty state, an unmuted Note-Off on a channel
mapped to drive `i` issues exactly `stop(i)`, leaves bit `i` of `pool_free` clear and
every other bit as it was, removes the channel's mapping and leaves every other channel's
mapping as it was. -/
theorem noteOff_mapped_releases_drive (arguments : Arguments) (dcount : Nat) (st : PlayState)
    (channel i : Int) (hreach : Reachable arguments dcount st)
    (hmapped : mapFind st.channel_map channel = some i) :
    0 ≤ i ∧
      (handleEvent arguments dcount st (Event.noteOff false channel)).2 = [Effect.stop i] ∧
      (handleEvent arguments dcount st (Event.noteOff false channel)).1.pool_free.testBit i.toNat
        = false ∧
      (∀ j, j ≠ i.toNat →
        (handleEvent arguments dcount st (Event.noteOff false channel)).1.pool_free.testBit j
          = st.pool_free.testBit j) ∧
      mapFind (handleEvent arguments dcount st (Event.noteOff false channel)).1.channel_map channel
        = none ∧
      ∀ c, c ≠ channel →
        mapFind (handleEvent arguments dcount st (Event.noteOff false channel)).1.channel_map c
          = mapFind st.channel_map c := by
  have hwf := wellFormed_of_reachable arguments dcount st hreach
  have hr := hwf.range channel i hmapped
  have hmark := hwf.marked channel i hmapped
  rw [handleEvent_noteOff_mapped arguments dcount st channel i hmapped]
  obtain ⟨n, rfl⟩ := Int.eq_ofNat_of_zero_le hr.1
  have hn : n < 32 := by omega
  rw [Int.toNat_natCast] at hmark ⊢
  refine ⟨hr.1, rfl, ?_, ?_, mapFind_mapErase_self _ _ hwf.ascending,
    fun c hc => mapFind_mapErase_ne _ _ _ hc⟩
  · simp only
    rw [testBit_xor_shl1 _ n n hn, hmark]
    simp
  · intro j hj
    simp only
    rw [testBit_xor_shl1 _ n j hn]
    have : decide (n = j) = false := by simpa using fun h => hj h.symm
    rw [this, Bool.xor_false]

/-- C7, an instance: channels 1 and 2 hold the drives 0 and 1, Note-Off on channel 1. -/
theorem noteOff_mapped_releases_drive_witness :
    Reachable ⟨2, false⟩ 2 ⟨[(1, 0), (2, 1)], 3⟩ ∧
      mapFind (⟨[(1, 0), (2, 1)], 3⟩ : PlayState).channel_map 1 = some 0 ∧
      (handleEvent ⟨2, false⟩ 2 ⟨[(1, 0), (2, 1)], 3⟩ (Event.noteOff false 1)).2 =
        [Effect.stop 0] ∧
      (handleEvent ⟨2, false⟩ 2 ⟨[(1, 0), (2, 1)], 3⟩
        (Event.noteOff false 1)).1.pool_free.testBit (0 : Int).toNat = false :=
  have h1 : Reachable ⟨2, false⟩ 2 ⟨[(1, 0), (2, 1)], 3⟩ :=
    ⟨[Event.noteOn false 1 60, Event.noteOn false 2 64], by decide⟩
  have h2 : mapFind (⟨[(1, 0), (2, 1)], 3⟩ : PlayState).channel_map 1 = some 0 := by decide
  have h := noteOff_mapped_releases_drive ⟨2, false⟩ 2 ⟨[(1, 0), (2, 1)], 3⟩ 1 0 h1 h2
  ⟨h1, h2, h.2.1, h.2.2.1⟩

/-- C11: for a drive of a freshly constructed registry and any sequence of sweeps,
`play`s and `stop`s, the writes to the drive are the pulse train in which the `p`-th pulse
is preceded by a write to the direction line exactly when `p` is a positive multiple of
81, with the level of the toggled direction; after `P` pulses `steps` is `P mod 81` and
`direction` has been toggled `P div 81` times. -/
theorem direction_flips_every_81_pulses (cfg : List DriveCfg) (i : Nat) (hi : i < cfg.length)
    (acts : List Action) :
    writesOf i (runActions (create cfg) acts).2 =
        pulseTrain i 0 (stepPulses i (runActions (create cfg) acts).2) ∧
      (∃ d, (runActions (create cfg) acts).1[i]? = some d ∧
        d.steps = ((stepPulses i (runActions (create cfg) acts).2 % 81 : Nat) : Int) ∧
        d.direction = decide (stepPulses i (runActions (create cfg) acts).2 / 81 % 2 = 0)) ∧
      ∀ (p : Nat) (level : Bool), ⟨i, Line.direction, level⟩ ∈ pulseSlot i p ↔
        (p % 81 = 0 ∧ level = decide (p / 81 % 2 = 0)) := by
  have hlen : i < (create cfg).length := by simpa [create] using hi
  have hd := List.getElem?_eq_getElem hlen
  have hm := create_mem cfg _ (List.getElem_mem hlen)
  have h := runActions_train i acts (create cfg) _ 0 hd (by rw [hm.2.2.1]; rfl)
    (by rw [hm.2.2.2]; rfl)
  refine ⟨by simpa using h.1, by simpa using h.2, ?_⟩
  intro p level
  unfold pulseSlot pulse
  split
  · rename_i h81
    simp [h81]
  · rename_i h81
    simp [h81]

set_option maxRecDepth 100000 in
/-- C11, an instance: one drive played at 7200 Hz (`maxticks = 1`) and swept 81 times
makes 81 pulses and ends with `steps = 0` and the direction reversed. -/
theorem direction_flips_every_81_pulses_witness :
    (0 : Nat) < [(⟨17, 18⟩ : DriveCfg)].length ∧
      stepPulses 0 (runActions (create [⟨17, 18⟩])
        (Action.play 0 7200 :: List.replicate 81 Action.sweep)).2 = 81 ∧
      (runActions (create [⟨17, 18⟩])
        (Action.play 0 7200 :: List.replicate 81 Action.sweep)).1 =
          [⟨0, 0, 17, 18, 0, 1, 0, false⟩] ∧
      writesOf 0 (runActions (create [⟨17, 18⟩])
          (Action.play 0 7200 :: List.replicate 81 Action.sweep)).2 =
        pulseTrain 0 0 (stepPulses 0 (runActions (create [⟨17, 18⟩])
          (Action.play 0 7200 :: List.replicate 81 Action.sweep)).2) :=
  have h : (0 : Nat) < [(⟨17, 18⟩ : DriveCfg)].length := by decide
  have hq : doubleToInt ((RESOLUTION : ℚ) / 7200) = 1 :=
    doubleToInt_of_floor (by norm_num [RESOLUTION])
      (by rw [show (RESOLUTION : ℚ) / 7200 = ((1 : Int) : ℚ) by norm_num [RESOLUTION],
        Int.floor_intCast]) (by decide)
  have hp : play (create [⟨17, 18⟩]) 0 7200 = [⟨0, 0, 17, 18, 0, 1, 0, true⟩] := by
    rw [play_single 17 18 7200 (by norm_num), hq]
  have hrun : runActions (create [⟨17, 18⟩])
      (Action.play 0 7200 :: List.replicate 81 Action.sweep) =
      runActions [⟨0, 0, 17, 18, 0, 1, 0, true⟩] (List.replicate 81 Action.sweep) := by
    simp only [runActions, applyAction, hp, List.nil_append]
  ⟨h, by rw [hrun]; decide, by rw [hrun]; decide,
    (direction_flips_every_81_pulses [⟨17, 18⟩] 0 h
      (Action.play 0 7200 :: List.replicate 81 Action.sweep)).1⟩

/-- C12: for every state and valid index, `play(index, 0)` gives the state that
`stop(index)` gives: the drive's `maxticks` is -1, its other fields (`ticks` too) and
all other drives are as they were. -/
theorem play_zero_is_stop (ds : List Drive) (i : Nat) (d : Drive) (hd : ds[i]? = some d) :
    play ds (i : Int) 0 = stop ds (i : Int) ∧
      (play ds (i : Int) 0)[i]? = some { d with maxticks := -1 } ∧
      (∀ j, j ≠ i → (play ds (i : Int) 0)[j]? = ds[j]?) ∧
      (play ds (i : Int) 0).length = ds.length := by
  have h : play ds (i : Int) 0 = stop ds (i : Int) := by simp [play]
  rw [h]
  refine ⟨rfl, ?_, ?_, update_length ds _ _⟩
  · rw [stop_getElem?_self, hd]; rfl
  · intro j hj
    exact stop_getElem?_ne ds _ j (by omega)

/-- C12, an instance: `play(1, 0)` on a registry of two playing drives. -/
theorem play_zero_is_stop_witness :
    [(⟨0, 0, 17, 18, 3, 16, 7, true⟩ : Drive), ⟨0, 0, 22, 23, 2, 5, 80, false⟩][1]? =
        some ⟨0, 0, 22, 23, 2, 5, 80, false⟩ ∧
      (play [(⟨0, 0, 17, 18, 3, 16, 7, true⟩ : Drive), ⟨0, 0, 22, 23, 2, 5, 80, false⟩]
        ((1 : Nat) : Int) 0)[1]? = some ⟨0, 0, 22, 23, 2, -1, 80, false⟩ :=
  have h : [(⟨0, 0, 17, 18, 3, 16, 7, true⟩ : Drive), ⟨0, 0, 22, 23, 2, 5, 80, false⟩][1]? =
      some ⟨0, 0, 22, 23, 2, 5, 80, false⟩ := rfl
  ⟨h, (play_zero_is_stop _ 1 _ h).2.1⟩

/-- C13: `r_to_n` (a total function: each turn of its loop lowers the number of
carriage returns) returns a string of the same length that holds a line break where the
argument holds a carriage return and the argument's character elsewhere; the result has
no carriage return and `r_to_n` is idempotent. -/
theorem r_to_n_normalises (s : List Char) :
    (r_to_n s).length = s.length ∧
      (∀ k : Nat, (r_to_n s)[k]? = (s[k]?).map fun c => if c = '\r' then '\n' else c) ∧
      r_to_n s = s.map crToLf ∧ '\r' ∉ r_to_n s ∧ r_to_n (r_to_n s) = r_to_n s := by
  have hmap := r_to_n_eq_map s
  have hno : '\r' ∉ s.map crToLf := by
    intro hc
    obtain ⟨c, _, h⟩ := List.mem_map.mp hc
    unfold crToLf at h
    split at h
    · cases h
    · rename_i hne; exact hne h
  refine ⟨by rw [hmap, List.length_map], ?_, hmap, by rw [hmap]; exact hno, ?_⟩
  · intro k
    rw [hmap, List.getElem?_map]
    rfl
  · rw [r_to_n_eq_map (r_to_n s), hmap, List.map_map]
    apply List.map_congr_left
    intro c _
    simp only [Function.comp, crToLf]
    split
    · rfl
    · rename_i h; simp [h]

/-- C14, the code at the failing input: `stop` assigns `maxticks` without holding the
mutex, and so does `play` with the frequency 0, which returns through `stop` before the
lock; `play` with any other frequency makes its assignments between lock and unlock. -/
theorem stop_writes_without_lock (drive : Int) :
    guarded (stopOps drive) = false ∧ guarded (playOps drive 0) = false ∧
      ∀ f : ℚ, f ≠ 0 → guarded (playOps drive f) = true := by
  refine ⟨rfl, ?_, ?_⟩
  · simp [playOps, stopOps, guarded, guardedFrom]
  · intro f hf
    simp [playOps, hf, guarded, guardedFrom]

/-- C15 (amended): in every state reached from the construction of the registry by
sweeps, `stop`s and `play`s whose frequency is 0 or lies in `(0, RESOLUTION]` with a
quotient that fits an `int`, every drive has exactly one of `maxticks = -1` and
`maxticks > 0`. -/
theorem idle_or_pulsing (cfg : List DriveCfg) (acts : List Action)
    (hacts : ∀ a ∈ acts, a.playable) :
    ∀ d ∈ (runActions (create cfg) acts).1,
      (d.maxticks = -1 ∧ ¬ 0 < d.maxticks) ∨ (d.maxticks ≠ -1 ∧ 0 < d.maxticks) := by
  intro d hd
  have h := runActions_forall (fun d => d.maxticks = -1 ∨ 0 < d.maxticks) acts (create cfg)
    (fun a ha ds' h' => applyAction_idle_or_pulsing a (hacts a ha) ds' h')
    (fun d hd => Or.inl (create_mem cfg d hd).2.1) d hd
  rcases h with h | h
  · exact Or.inl ⟨h, by omega⟩
  · exact Or.inr ⟨by omega, h⟩

/-- C15, an instance: `play` at 440 Hz, a sweep, `play` at 0 Hz, `stop`. -/
theorem idle_or_pulsing_witness :
    (∀ a ∈ [Action.play 0 440, Action.sweep, Action.play 0 0, Action.stop 0], a.playable) ∧
      ∀ d ∈ (runActions (create [⟨17, 18⟩])
          [Action.play 0 440, Action.sweep, Action.play 0 0, Action.stop 0]).1,
        (d.maxticks = -1 ∧ ¬ 0 < d.maxticks) ∨ (d.maxticks ≠ -1 ∧ 0 < d.maxticks) :=
  have h : ∀ a ∈ [Action.play 0 440, Action.sweep, Action.play 0 0, Action.stop 0],
      a.playable := by
    intro a ha
    simp only [List.mem_cons, List.mem_singleton, List.not_mem_nil, or_false] at ha
    rcases ha with rfl | rfl | rfl | rfl
    · refine Or.inr ⟨by norm_num, by norm_num [RESOLUTION], ?_⟩
      have : ⌊(RESOLUTION : ℚ) / 440⌋ = 16 := by
        rw [Int.floor_eq_iff]; norm_num [RESOLUTION]
      omega
    · trivial
    · exact Or.inl rfl
    · trivial
  ⟨h, idle_or_pulsing [⟨17, 18⟩] _ h⟩

/-- C15 as stated fails: `play(0, 7201)` on a fresh registry leaves `maxticks = 0`,
which is neither -1 nor positive. -/
theorem maxticks_zero_after_play :
    (0 : ℚ) < 7201 ∧
      ((runActions (create [⟨17, 18⟩]) [Action.play 0 7201]).1[0]?).map Drive.maxticks =
        some 0 := by
  have hq : doubleToInt ((RESOLUTION : ℚ) / 7201) = 0 :=
    doubleToInt_of_floor (by norm_num [RESOLUTION])
      (by rw [Int.floor_eq_iff]; norm_num [RESOLUTION]) (by decide)
  refine ⟨by norm_num, ?_⟩
  simp only [runActions, applyAction]
  rw [play_single 17 18 7201 (by norm_num), hq]
  rfl

/-- C16: in every state reachable from the empty state, with any number of drives, every
drive that a channel maps to is marked in `pool_free`, and no two channels map to the same
drive. -/
theorem mapped_drives_marked_and_exclusive (arguments : Arguments) (dcount : Nat)
    (st : PlayState) (hreach : Reachable arguments dcount st) :
    (∀ c v, mapFind st.channel_map c = some v →
        0 ≤ v ∧ st.pool_free.testBit v.toNat = true) ∧
      ∀ c c' v, mapFind st.channel_map c = some v → mapFind st.channel_map c' = some v →
        c = c' := by
  have hwf := wellFormed_of_reachable arguments dcount st hreach
  constructor
  · intro c v h
    exact ⟨(hwf.range c v h).1, hwf.marked c v h⟩
  · intro c c' v h h'
    exact hwf.unique c c' v h h'

/-- C16, an instance: 33 drives, the state after Note-On events on the channels
0 .. 33. -/
theorem mapped_drives_marked_and_exclusive_witness :
    Reachable ⟨1, false⟩ 33 (playLoop ⟨1, false⟩ 33 PlayState.empty (notesOn 34)).1 ∧
      ∀ c c' v,
        mapFind (playLoop ⟨1, false⟩ 33 PlayState.empty (notesOn 34)).1.channel_map c
          = some v →
        mapFind (playLoop ⟨1, false⟩ 33 PlayState.empty (notesOn 34)).1.channel_map c'
          = some v → c = c' :=
  have h : Reachable ⟨1, false⟩ 33 (playLoop ⟨1, false⟩ 33 PlayState.empty (notesOn 34)).1 :=
    ⟨notesOn 34, rfl⟩
  ⟨h, (mapped_drives_marked_and_exclusive ⟨1, false⟩ 33 _ h).2⟩

/-- C17: in every state reached from the construction of the registry by sweeps,
`play`s and `stop`s every drive has `0 ≤ steps ≤ MAX_STEPS`; and a pass of the sweep that
pulses a drive with `steps = MAX_STEPS` leaves it with `steps = 0`. -/
theorem steps_stay_in_range (cfg : List DriveCfg) (acts : List Action) :
    (∀ d ∈ (runActions (create cfg) acts).1, 0 ≤ d.steps ∧ d.steps ≤ MAX_STEPS) ∧
      ∀ (j : Nat) (d : Drive), d.steps = MAX_STEPS → stepPulses j (loopDrive j d).2 ≠ 0 →
        (loopDrive j d).1.steps = 0 := by
  constructor
  · refine runActions_forall (fun d => 0 ≤ d.steps ∧ d.steps ≤ MAX_STEPS) acts (create cfg)
      (fun a _ ds' h => applyAction_steps_range a ds' h) ?_
    intro d hd
    have := (create_mem cfg d hd).2.2.1
    rw [this]
    simp [MAX_STEPS]
  · intro j d hs hp
    have hw : wrapInt (d.steps + 1) = 81 := by rw [hs]; decide
    unfold loopDrive at hp ⊢
    simp only [hw] at hp ⊢
    split
    · rename_i h; simp [h, stepPulses] at hp
    · split
      · simp [MAX_STEPS]
      · rename_i h1 h2; simp [h1, h2, stepPulses] at hp

/-- C17, an instance: a drive with `steps = 80` whose pulse is due. -/
theorem steps_stay_in_range_witness :
    (⟨0, 0, 17, 18, 3, 4, 80, true⟩ : Drive).steps = MAX_STEPS ∧
      stepPulses 0 (loopDrive 0 ⟨0, 0, 17, 18, 3, 4, 80, true⟩).2 ≠ 0 ∧
      (loopDrive 0 ⟨0, 0, 17, 18, 3, 4, 80, true⟩).1.steps = 0 :=
  have h1 : (⟨0, 0, 17, 18, 3, 4, 80, true⟩ : Drive).steps = MAX_STEPS := rfl
  have h2 : stepPulses 0 (loopDrive 0 ⟨0, 0, 17, 18, 3, 4, 80, true⟩).2 ≠ 0 := by decide
  ⟨h1, h2, (steps_stay_in_range [] []).2 0 _ h1 h2⟩

/-- C18: for a drive with `maxticks = m ≥ 1` (an `int`, so below 2^31) and `ticks = 0`,
over any sequence of sweeps and of commands to other drives: after `n` sweeps the drive
has made `n div m` pulses and has `ticks = n mod m`, within `0 .. m-1`; the next sweep,
sweep `n + 1`, pulses it exactly when `m` divides `n + 1`; and no sweep makes more than
one pulse on a drive. -/
theorem steady_pulse_cadence (ds : List Drive) (i : Nat) (d : Drive) (acts : List Action)
    (hd : ds[i]? = some d) (hm : 1 ≤ d.maxticks) (hint : d.maxticks < 2147483648)
    (ht : d.ticks = 0) (hacts : ∀ a ∈ acts, a.commands (i : Int) = false) :
    (stepPulses i (runActions ds acts).2 : Int) = (sweepCount acts : Int) / d.maxticks ∧
      (∃ d', (runActions ds acts).1[i]? = some d' ∧ d'.maxticks = d.maxticks ∧
        d'.ticks = (sweepCount acts : Int) % d.maxticks ∧ 0 ≤ d'.ticks ∧
        d'.ticks < d.maxticks) ∧
      stepPulses i (loopIter (runActions ds acts).1).2 =
        (if d.maxticks ∣ ((sweepCount acts : Int) + 1) then 1 else 0) ∧
      ∀ (ds' : List Drive) (j : Nat), stepPulses j (loopIter ds').2 ≤ 1 := by
  obtain ⟨hs, hw⟩ := runActions_project i acts ds d hd hacts
  obtain ⟨c1, c2, c3⟩ := sweepsDrive_cadence i (sweepCount acts) d hm hint (by omega) (by omega)
  rw [ht, Int.zero_add] at c2 c3
  have hpos : (0 : Int) < d.maxticks := by omega
  refine ⟨?_, ⟨_, hs, c1, c2, ?_, ?_⟩, ?_, stepPulses_loopIter_le⟩
  · rw [← stepPulses_writesOf, hw, c3]
  · rw [c2]; exact Int.emod_nonneg _ (by omega)
  · rw [c2]; exact Int.emod_lt_of_pos _ hpos
  · rw [stepPulses_loopIter, hs]
    simp only
    have := stepPulses_loopDrive_cadence i (sweepsDrive i (sweepCount acts) d).1
      (sweepCount acts) (by rw [c1]; exact hm) (by rw [c1]; exact hint) (by rw [c1, c2])
    rw [c1] at this
    exact this

/-- C18, an instance: a drive with `maxticks = 3` over five sweeps. -/
theorem steady_pulse_cadence_witness :
    [(⟨0, 0, 17, 18, 0, 3, 5, true⟩ : Drive)][0]? = some ⟨0, 0, 17, 18, 0, 3, 5, true⟩ ∧
      (∀ a ∈ [Action.sweep, Action.sweep, Action.play 1 440, Action.sweep, Action.sweep,
          Action.sweep], a.commands ((0 : Nat) : Int) = false) ∧
      (stepPulses 0 (runActions [(⟨0, 0, 17, 18, 0, 3, 5, true⟩ : Drive)]
          [Action.sweep, Action.sweep, Action.play 1 440, Action.sweep, Action.sweep,
            Action.sweep]).2 : Int) =
        (sweepCount [Action.sweep, Action.sweep, Action.play 1 440, Action.sweep, Action.sweep,
          Action.sweep] : Int) / (⟨0, 0, 17, 18, 0, 3, 5, true⟩ : Drive).maxticks ∧
      stepPulses 0 (loopIter (runActions [(⟨0, 0, 17, 18, 0, 3, 5, true⟩ : Drive)]
          [Action.sweep, Action.sweep, Action.play 1 440, Action.sweep, Action.sweep,
            Action.sweep]).1).2 =
        (if (⟨0, 0, 17, 18, 0, 3, 5, true⟩ : Drive).maxticks ∣
            ((sweepCount [Action.sweep, Action.sweep, Action.play 1 440, Action.sweep,
              Action.sweep, Action.sweep] : Int) + 1) then 1 else 0) :=
  have h1 : [(⟨0, 0, 17, 18, 0, 3, 5, true⟩ : Drive)][0]? =
      some ⟨0, 0, 17, 18, 0, 3, 5, true⟩ := rfl
  have h2 : ∀ a ∈ [Action.sweep, Action.sweep, Action.play 1 440, Action.sweep, Action.sweep,
      Action.sweep], a.commands ((0 : Nat) : Int) = false := by
    simp [Action.commands]
  have h := steady_pulse_cadence _ 0 _ _ h1 (by decide) (by decide) rfl h2
  ⟨h1, h2, h.1, h.2.2.1⟩

/-- C19: in every state reachable from the empty state, with any number of drives, a bit
of `pool_free` is set exactly when some channel maps to that drive; the marked drives are
as many as the mapped channels and at most `dcount`; and a Note-Off on a mapped channel
leaves the bit of its drive clear. -/
theorem no_leaked_slots (arguments : Arguments) (dcount : Nat) (st : PlayState)
    (hreach : Reachable arguments dcount st) :
    (∀ i : Nat, st.pool_free.testBit i = true ↔
        ∃ c, mapFind st.channel_map c = some (i : Int)) ∧
      occupied st.pool_free dcount = st.channel_map.length ∧
      occupied st.pool_free dcount ≤ dcount ∧
      ∀ c v, mapFind st.channel_map c = some v →
        (handleEvent arguments dcount st (Event.noteOff false c)).1.pool_free.testBit v.toNat
          = false := by
  have hwf := wellFormed_of_reachable arguments dcount st hreach
  have hcov := covered_of_reachable arguments dcount st hreach
  refine ⟨?_, occupied_eq_length dcount st hwf hcov, ?_, ?_⟩
  · intro i
    constructor
    · exact hcov i
    · rintro ⟨c, hc⟩
      have := hwf.marked c _ hc
      rwa [Int.toNat_natCast] at this
  · have := List.countP_le_length (fun i => st.pool_free.testBit i) (l := List.range dcount)
    rwa [List.length_range] at this
  · intro c v hc
    have hr := hwf.range c v hc
    rw [handleEvent_noteOff_mapped arguments dcount st c v hc]
    obtain ⟨n, rfl⟩ := Int.eq_ofNat_of_zero_le hr.1
    have hm := hwf.marked c _ hc
    rw [Int.toNat_natCast] at hm ⊢
    simp only
    rw [testBit_xor_shl1 _ n n (by omega), hm]
    simp

/-- C19, an instance: 33 drives, the state after Note-On events on the channels 0 .. 32
and a Note-Off on channel 5. -/
theorem no_leaked_slots_witness :
    Reachable ⟨1, false⟩ 33
        (playLoop ⟨1, false⟩ 33 PlayState.empty (notesOn 33 ++ [Event.noteOff false 5])).1 ∧
      occupied
          (playLoop ⟨1, false⟩ 33 PlayState.empty
            (notesOn 33 ++ [Event.noteOff false 5])).1.pool_free 33 =
        (playLoop ⟨1, false⟩ 33 PlayState.empty
          (notesOn 33 ++ [Event.noteOff false 5])).1.channel_map.length :=
  have h : Reachable ⟨1, false⟩ 33
      (playLoop ⟨1, false⟩ 33 PlayState.empty (notesOn 33 ++ [Event.noteOff false 5])).1 :=
    ⟨notesOn 33 ++ [Event.noteOff false 5], rfl⟩
  ⟨h, (no_leaked_slots ⟨1, false⟩ 33 _ h).2.1⟩

/-- C20: for every sequence of events handled from the empty state with as many drives
as the registry was constructed with, every `play(i, _)` and `stop(i)` issued has
`0 ≤ i < N`, so `m_drives[i]` exists whatever the registry has been through; with no
drive at all, no `play` and no `stop` is issued. -/
theorem drive_indices_in_range (arguments : Arguments) (cfg : List DriveCfg)
    (events : List Event) :
    (∀ x ∈ (playLoop arguments cfg.length PlayState.empty events).2, ∀ i,
        x.drive? = some i →
          0 ≤ i ∧ i < (cfg.length : Int) ∧
            ∀ acts : List Action, ∃ d, (runActions (create cfg) acts).1[i.toNat]? = some d) ∧
      ∀ x ∈ (playLoop arguments 0 PlayState.empty events).2, x.drive? = none := by
  constructor
  · intro x hx i hi
    have h := playLoop_drive_range arguments cfg.length events _ (wellFormed_empty _) x hx i hi
    refine ⟨h.1, h.2, ?_⟩
    intro acts
    have hlt : i.toNat < (runActions (create cfg) acts).1.length := by
      rw [runActions_length]
      simp only [create, List.length_map]
      omega
    exact ⟨_, List.getElem?_eq_getElem hlt⟩
  · intro x hx
    cases hd : x.drive? with
    | none => rfl
    | some i =>
      have h := playLoop_drive_range arguments 0 events _ (wellFormed_empty _) x hx i hd
      omega

/-- C20, an instance: the `play` issued for the second of two Note-On events. -/
theorem drive_indices_in_range_witness :
    ∀ i, (Effect.play 1 (pitch ⟨2, false⟩ 64)).drive? = some i →
      0 ≤ i ∧ i < (([⟨17, 18⟩, ⟨22, 23⟩] : List DriveCfg).length : Int) ∧
        ∀ acts : List Action,
          ∃ d, (runActions (create [⟨17, 18⟩, ⟨22, 23⟩]) acts).1[i.toNat]? = some d :=
  (drive_indices_in_range ⟨2, false⟩ [⟨17, 18⟩, ⟨22, 23⟩]
    [Event.noteOn false 1 60, Event.noteOn false 2 64]).1 _ (by
      have e1 : handleEvent ⟨2, false⟩ 2 PlayState.empty (Event.noteOn false 1 60) =
          (⟨[(1, 0)], 1⟩, [Effect.play 0 (pitch ⟨2, false⟩ 60)]) := rfl
      have e2 : handleEvent ⟨2, false⟩ 2 ⟨[(1, 0)], 1⟩ (Event.noteOn false 2 64) =
          (⟨[(1, 0), (2, 1)], 3⟩, [Effect.play 1 (pitch ⟨2, false⟩ 64)]) := rfl
      simp only [List.length_cons, List.length_nil, playLoop, e1, e2]
      simp)

end FloppyMusic
